import Mathlib

/-!
# Image fingerprint search: a verification development of `src/fingerprint.cpp`

The program indexes a corpus of images by coarse colour fingerprints of square
regions and matches a query image against that index, first by a whole-image
hash and then by sampled regions whose matches vote for positional offsets.

Modelling conventions.

* `int` values are `Int`; `unsigned long long` sums are reduced `% 2 ^ 64`; the
  conversions `int -> unsigned long` and `unsigned long -> int` are `toU64` and
  `toI32`.  Image dimensions and vote counts, which the program only ever
  produces as non-negative quantities below `2 ^ 31`, are `Nat`.
* `CImg<uint8_t>` is a record of its dimensions and a pixel function (depth is
  always 1 in this program); a pixel read is reduced `% 256`.
* `CImg::get_crop` is library code: its corners are inclusive and its default
  boundary condition pads with zeros, and it is modelled so.
* `std::unordered_multimap`, `std::unordered_map` are association lists whose
  list order stands for the (unspecified) iteration order; `std::map<float,int>`
  is an association list kept in ascending key order.  Its keys come from `int`
  offsets converted to `float`; such a key is represented by the integer it
  equals, `floatOfInt d`.
* The local `sum` of `computeFingerprint` has no initialiser; its starting value
  is a parameter of the model.
* The archive operations of the serialization library are parameters (`Codec`)
  with their round-trip contract; `textData` and `textHashes` are one instance.
  The perceptual hash of a file is an opaque value carried by its `DirEntry`.
* Code that can divide by zero returns `Option`.
-/

namespace Fingerprint

/-! ## Machine integers -/

/-- Conversion of an `int` to `unsigned long` (64 bits, LP64). -/
def toU64 (z : Int) : Nat := (z % 2 ^ 64).toNat

/-- Conversion of an unsigned value to `int` (32 bits, two's complement). -/
def toI32 (n : Nat) : Int := ((n : Int) + 2 ^ 31) % 2 ^ 32 - 2 ^ 31

/-! ## Images and crops -/

/-- A `CImg<uint8_t>` of depth 1: `data x y c` is the stored value of channel `c`
at pixel `(x, y)`. -/
structure CImg where
  width : Nat
  height : Nat
  spectrum : Nat
  data : Nat → Nat → Nat → Nat

/-- Pixel read `image(x, y, 0, channel)`, an 8-bit value. -/
def CImg.pix (image : CImg) (x y channel : Nat) : Nat := image.data x y channel % 256

/-- Inclusive rectangle of pixel coordinates, as handed to `get_crop`:
corners `(x0, y0)` and `(x1, y1)`. -/
structure Rect where
  x0 : Int
  y0 : Int
  x1 : Int
  y1 : Int
deriving DecidableEq, Repr

/-- Pixel `(px, py)` is one of the coordinates that `get_crop` reads for the
rectangle: both corners are inclusive and may be given in either order. -/
def Rect.covers (r : Rect) (px py : Int) : Prop :=
  min r.x0 r.x1 ≤ px ∧ px ≤ max r.x0 r.x1 ∧ min r.y0 r.y1 ≤ py ∧ py ≤ max r.y0 r.y1

instance (r : Rect) (px py : Int) : Decidable (r.covers px py) := by
  unfold Rect.covers; infer_instance

/-- Number of columns of the crop: `1 + nx1 - nx0`. -/
def Rect.cols (r : Rect) : Nat := (1 + max r.x0 r.x1 - min r.x0 r.x1).toNat

/-- Number of rows of the crop: `1 + ny1 - ny0`. -/
def Rect.rows (r : Rect) : Nat := (1 + max r.y0 r.y1 - min r.y0 r.y1).toNat

/-- Read of the source image at signed coordinates with the zero (Dirichlet)
boundary condition of `get_crop`. -/
def CImg.atOrZero (image : CImg) (x y : Int) (c : Nat) : Nat :=
  if 0 ≤ x ∧ x < image.width ∧ 0 ≤ y ∧ y < image.height ∧ c < image.spectrum then
    image.pix x.toNat y.toNat c
  else 0

/-- The call `image.get_crop(x0, y0, 0, 0, x1, y1, 0, 2)`: a three-channel image of
`1 + |x1 - x0|` by `1 + |y1 - y0|` pixels, zero outside the source image. -/
def get_crop (image : CImg) (r : Rect) : CImg where
  width := r.cols
  height := r.rows
  spectrum := 3
  data := fun i j c =>
    if i < r.cols ∧ j < r.rows ∧ c < 3 then
      image.atOrZero (min r.x0 r.x1 + i) (min r.y0 r.y1 + j) c
    else 0

/-! ## The region fingerprint -/

/-- The accumulation loops of `computeFingerprint` for one channel, started from
`init`: the local `sum` is declared without an initialiser, so its starting
value is whatever `init` the caller of this model supplies. -/
def channelSum (init : Nat) (image : CImg) (channel : Nat) : Nat :=
  (List.range image.width).foldl
    (fun sum x => (List.range image.height).foldl
      (fun sum y => (sum + image.pix x y channel) % 2 ^ 64) sum)
    init

/-- The value pushed on `channelMeans` for one channel: `sum / numPixels`
narrowed to `int`, kept as its 32-bit pattern. -/
def channelMeanBits (init : Nat) (image : CImg) (channel : Nat) : Nat :=
  (channelSum init image channel / (image.width * image.height)) % 2 ^ 32

/-- The function `computeFingerprint`.  `sum0 channel` is the indeterminate value
the uninitialised `sum` holds when the loop for `channel` starts.  The result is
`none` when `numPixels` is zero (division by zero). -/
def computeFingerprint (sum0 : Nat → Nat) (image : CImg) : Option Int :=
  if image.width * image.height = 0 then none
  else
    let channelMeans := (List.range 3).map (fun channel => channelMeanBits (sum0 channel) image channel)
    some (toI32 (((channelMeans.getD 0 0 <<< 16) ||| (channelMeans.getD 1 0 <<< 8)
      ||| channelMeans.getD 0 0) % 2 ^ 32))

/-- Starting value of `sum` under the reading that it starts at zero. -/
def zeroSum : Nat → Nat := fun _ => 0

/-- Integer arithmetic mean of one channel over all pixels of the region, in the
words of the specification. -/
def channelMean (image : CImg) (channel : Nat) : Nat :=
  ((List.range image.width).map (fun x =>
    ((List.range image.height).map (fun y => image.pix x y channel)).sum)).sum
    / (image.width * image.height)

/-- The fingerprint of the specification: the means of channels 0, 1 and 2, each
used once, packed as `(meanA << 16) | (meanB << 8) | meanC`. -/
def canonicalFingerprint (image : CImg) : Int :=
  ((channelMean image 0 <<< 16) ||| (channelMean image 1 <<< 8) ||| channelMean image 2 : Nat)

/-- A region of two pixels: `(10, 20, 30)` at `(0, 0)` and `(20, 40, 50)` at `(1, 0)`. -/
def twoPixelRegion : CImg where
  width := 2
  height := 1
  spectrum := 3
  data := fun x _ c =>
    if x = 0 then (if c = 0 then 10 else if c = 1 then 20 else 30)
    else (if c = 0 then 20 else if c = 1 then 40 else 50)

/-! ## The index builder: the grid of regions of one image -/

/-- The loop `for (int x = R; x < W; x += R)` started at `x`, returning the values
of `x` for which the body runs; `fuel` bounds the number of iterations. -/
def stepLoop (R W : Int) : Nat → Int → List Int
  | 0, _ => []
  | fuel + 1, x => if x < W then x :: stepLoop R W fuel (x + R) else []

/-- The values taken by the loop variable of `for (int x = R; x < W; x += R)`.
With `1 ≤ R` the loop body runs fewer than `W` times, so `W` iterations of fuel
are enough. -/
def steps (R W : Int) : List Int := stepLoop R W W.toNat R

/-- The regions one image of width `W` and height `H` contributes to the index, in
the order the builder crops them, each with the position marker it is inserted
with: per column `x` the interior cells and then the bottom-edge region, then the
right-edge regions, then the bottom-right corner. -/
def regionPlan (W H R : Int) : List (Rect × Int) :=
  (steps R W).flatMap (fun x =>
      (steps R H).map (fun y => (({ x0 := x - R, y0 := y - R, x1 := x, y1 := y } : Rect), x))
        ++ [(({ x0 := x - R, y0 := H - R, x1 := x, y1 := H } : Rect), x)])
    ++ (steps R H).map (fun y => (({ x0 := W - R, y0 := y - R, x1 := W, y1 := y } : Rect), W))
    ++ [(({ x0 := W - R, y0 := H - R, x1 := W, y1 := H } : Rect), W)]

/-- Number of positive multiples of `R` strictly below `W`. -/
def nMultiples (R W : Int) : Nat := ((Finset.Ico 1 W).filter (fun m => R ∣ m)).card

/-- The interior cells of the grid: for each `x` and `y` of the stepped ranges the
rectangle with bottom-right corner `(x, y)`, position marker `x`. -/
def interiorCells (W H R : Int) : List (Rect × Int) :=
  (steps R W).flatMap (fun x =>
    (steps R H).map (fun y => (({ x0 := x - R, y0 := y - R, x1 := x, y1 := y } : Rect), x)))

/-- The bottom strip: for each `x` of the stepped range the rectangle with
bottom-right corner `(x, H)`, position marker `x`. -/
def bottomStrip (W H R : Int) : List (Rect × Int) :=
  (steps R W).map (fun x => (({ x0 := x - R, y0 := H - R, x1 := x, y1 := H } : Rect), x))

/-- The right strip: for each `y` of the stepped range the rectangle with
bottom-right corner `(W, y)`, position marker `W`. -/
def rightStrip (W H R : Int) : List (Rect × Int) :=
  (steps R H).map (fun y => (({ x0 := W - R, y0 := y - R, x1 := W, y1 := y } : Rect), W))

/-- The corner region: bottom-right corner `(W, H)`, position marker `W`. -/
def cornerRegion (W H R : Int) : Rect × Int :=
  (({ x0 := W - R, y0 := H - R, x1 := W, y1 := H } : Rect), W)

/-- An entry of the multimap `fingerprints`: fingerprint, image name, position marker. -/
abbrev Entry := Int × String × Int

/-- Crop and fingerprint the planned regions in order and build their index
entries; `sum0 i` is the indeterminate start of `sum` in the `i`-th call of
`computeFingerprint`. -/
def fingerprintRegions (sum0 : Nat → Nat → Nat) (imageName : String) (image : CImg) :
    Nat → List (Rect × Int) → Option (List Entry)
  | _, [] => some []
  | i, (r, marker) :: rest =>
    match computeFingerprint (sum0 i) (get_crop image r),
        fingerprintRegions sum0 imageName image (i + 1) rest with
    | some fingerprint, some entries => some ((fingerprint, imageName, marker) :: entries)
    | _, _ => none

/-- The entries the builder inserts into `fingerprints` for one decoded image. -/
def indexImage (sum0 : Nat → Nat → Nat) (imageName : String) (image : CImg) (R : Int) :
    Option (List Entry) :=
  fingerprintRegions sum0 imageName image 0 (regionPlan image.width image.height R)

/-! ## The matcher: sampling -/

/-- One coordinate of a sample: `(random() % (dim - R)) + R` stored in an `int`.
The operands of `%` and `+` are `unsigned long`; the result is `none` when the
modulus is zero. -/
def sampleCoord (r : Nat) (dim : Nat) (R : Int) : Option Int :=
  if toU64 ((dim : Int) - R) = 0 then none
  else some (toI32 ((r % toU64 ((dim : Int) - R) + toU64 R) % 2 ^ 64))

/-- The position `(x, y)` of the `i`-th sample; `random k` is the `k`-th output of
the engine, `x` is drawn before `y`. -/
def samplePosition (random : Nat → Nat) (image : CImg) (R : Int) (i : Nat) : Option (Int × Int) :=
  match sampleCoord (random (2 * i)) image.width R with
  | none => none
  | some x =>
    match sampleCoord (random (2 * i + 1)) image.height R with
    | none => none
    | some y => some (x, y)

/-- The rectangle of the crop `get_crop(x - R, y - R, 0, 0, x, y, 0, 2)` of a sample. -/
def sampleRect (R : Int) (pos : Int × Int) : Rect :=
  { x0 := pos.1 - R, y0 := pos.2 - R, x1 := pos.1, y1 := pos.2 }

/-- The sampling loop: `n` further samples starting with sample number `i`,
giving the vector `imageHashes` of pairs `(fingerprint, x)`. -/
def sampleLoop (sum0 : Nat → Nat → Nat) (random : Nat → Nat) (image : CImg) (R : Int) :
    Nat → Nat → Option (List (Int × Int))
  | 0, _ => some []
  | n + 1, i =>
    match samplePosition random image R i with
    | none => none
    | some pos =>
      match computeFingerprint (sum0 i) (get_crop image (sampleRect R pos)) with
      | none => none
      | some fingerprint =>
        match sampleLoop sum0 random image R n (i + 1) with
        | none => none
        | some rest => some ((fingerprint, pos.1) :: rest)

/-! ## The matcher: voting -/

/-- Number of low bits an integer of magnitude `a` loses when stored in a `float`
(24-bit significand), for `a < 2 ^ 32`. -/
def floatShift (a : Nat) : Nat := ((List.range 8).filter (fun e => 2 ^ (24 + e) ≤ a)).length

/-- The value of `(float) d` for an `int` `d`: `d` rounded to a 24-bit significand,
to nearest and ties to even.  The keys of `map<float, int>` are such values. -/
def floatOfInt (d : Int) : Int :=
  let a := d.natAbs
  let e := floatShift a
  let q := a / 2 ^ e
  let r := a % 2 ^ e
  let q1 := if 2 ^ e < 2 * r ∨ (2 * r = 2 ^ e ∧ q % 2 = 1) then q + 1 else q
  d.sign * ((q1 * 2 ^ e : Nat) : Int)

/-- A `map<float, int>`: offset keys in ascending order with their vote counts. -/
abbrev Hist := List (Int × Nat)

/-- The statement `m[k]++` on a `map<float, int>`: a new key enters with count 1 at
its place in the ascending order. -/
def histIncr (k : Int) : Hist → Hist
  | [] => [(k, 1)]
  | (k1, n) :: t =>
    if k < k1 then (k, 1) :: (k1, n) :: t
    else if k = k1 then (k1, n + 1) :: t
    else (k1, n) :: histIncr k t

/-- The `unordered_map<string, map<float, int>>` named `hits`; list order is the
iteration order. -/
abbrev Hits := List (String × Hist)

/-- The statement `hits[c][k]++`: a candidate not yet present enters with an empty
histogram first. -/
def hitsIncr (c : String) (k : Int) : Hits → Hits
  | [] => [(c, histIncr k [])]
  | (c1, h) :: t =>
    if c1 = c then (c1, histIncr k h) :: t else (c1, h) :: hitsIncr c k t

/-- The call `fingerprints.equal_range(hash)`: the entries with that key. -/
def equal_range (fingerprints : List Entry) (hash : Int) : List Entry :=
  fingerprints.filter (fun e => e.1 = hash)

/-- The body of the voting loop for one query sample `p = (hash, x)`. -/
def voteSample (fingerprints : List Entry) (hits : Hits) (p : Int × Int) : Hits :=
  if fingerprints.countP (fun e => e.1 = p.1) ≠ 0 then
    (equal_range fingerprints p.1).foldl
      (fun hits it => hitsIncr it.2.1 (floatOfInt (it.2.2 - p.2)) hits) hits
  else hits

/-- The voting loop over `imageHashes`, from an empty `hits`. -/
def vote (fingerprints : List Entry) (imageHashes : List (Int × Int)) : Hits :=
  imageHashes.foldl (voteSample fingerprints) []

/-- The histogram of candidate `c` in `hits` (empty when `c` is not a key). -/
def histOf (hits : Hits) (c : String) : Hist := (hits.lookup c).getD []

/-- The keys of a histogram are strictly ascending, as in a `std::map`. -/
def keysAscending (h : Hist) : Prop := h.Pairwise (fun a b => a.1 < b.1)

/-- The votes the voting loops cast, in order: for each query sample, one vote
`(candidate, key)` per index entry with the sample's fingerprint. -/
def votesOf (fingerprints : List Entry) (imageHashes : List (Int × Int)) : List (String × Int) :=
  imageHashes.flatMap (fun p =>
    (equal_range fingerprints p.1).map (fun it => (it.2.1, floatOfInt (it.2.2 - p.2))))

/-- The count stored under `hits[c][k]`, `none` when candidate `c` has no histogram
or its histogram has no key `k`. -/
def storedCount (hits : Hits) (c : String) (k : Int) : Option Nat :=
  match hits.lookup c with
  | none => none
  | some h => h.lookup k

/-- Number of pairs (query sample `s`, index entry `e`) such that the fingerprint of
`e` equals that of `s`, the image of `e` is `c` and the position marker of `e`
minus the `x` of `s` equals `d`. -/
def pairCount (fingerprints : List Entry) (imageHashes : List (Int × Int)) (c : String)
    (d : Int) : Nat :=
  (imageHashes.map (fun s =>
    fingerprints.countP (fun e => e.1 = s.1 ∧ e.2.1 = c ∧ e.2.2 - s.2 = d))).sum

/-! ## The scorer -/

/-- The inner loop of the scorer over the buckets of one histogram, with its three
variables `imgMax`, `runningSum` and the queue `lastTen`. -/
def scoreLoop : Nat → Nat → List Nat → Hist → Nat
  | imgMax, _, _, [] => imgMax
  | imgMax, runningSum, lastTen, kvpair2 :: rest =>
    let runningSum := runningSum + kvpair2.2
    let lastTen := lastTen ++ [kvpair2.2]
    if lastTen.length < 10 then scoreLoop imgMax runningSum lastTen rest
    else
      let imgMax := if runningSum > imgMax then runningSum else imgMax
      scoreLoop imgMax (runningSum - lastTen.headD 0) lastTen.tail rest

/-- The score `imgMax` the scorer computes for one candidate. -/
def imgMax (h : Hist) : Nat := scoreLoop 0 0 [] h

/-- The outer loop of the scorer: the pair `(max, bestMatch)` after all candidates. -/
def selectBest (hits : Hits) : Nat × String :=
  hits.foldl
    (fun st kvpair => if imgMax kvpair.2 > st.1 then (imgMax kvpair.2, kvpair.1) else st)
    (0, "")

/-- No exact tie in `hits`: two distinct candidates never share a positive score. -/
def noTie (hits : Hits) : Prop :=
  ∀ kv ∈ hits, ∀ kv2 ∈ hits, 0 < imgMax kv.2 → imgMax kv.2 = imgMax kv2.2 → kv = kv2

/-- Sum of the vote counts of the 10 consecutive buckets that start at bucket `i`
of the histogram (buckets in ascending offset order). -/
def windowSum (h : Hist) (i : Nat) : Nat := (((h.map Prod.snd).drop i).take 10).sum

/-- The sums of all runs of 10 consecutive buckets, by starting bucket. -/
def windowSums (h : Hist) : List Nat :=
  (List.range (h.length - 9)).map (windowSum h)

/-- The window sums of a list of counts by recursion on the list: the sum of the
first 10 counts, then the window sums of the tail. -/
def slidingSums : List Nat → List Nat
  | [] => []
  | v :: t => if 10 ≤ (v :: t).length then ((v :: t).take 10).sum :: slidingSums t else []

/-- Best 10-bucket window sum of a histogram in the words of the specification:
the maximum over all runs of 10 consecutive populated buckets, 0 when there is no
such run. -/
def bestWindow (h : Hist) : Nat := (windowSums h).foldr max 0

/-! ## The matcher as a whole -/

/-- The index `fingerprint_t`: the multimap `data` and the map `pHashes`. -/
structure Index where
  data : List Entry
  pHashes : List (Nat × String)

/-- What the run prints once the query image is decoded. -/
inductive Outcome where
  | exactMatch (name : String)
  | noMatches
  | bestMatch (name : String) (score : Nat)
  | fault
deriving DecidableEq, Repr

/-- The report of a run with the name of the best match left out. -/
def Outcome.withoutName : Outcome → Outcome
  | Outcome.bestMatch _ score => Outcome.bestMatch "" score
  | o => o

/-- The part of `main` after the query image is decoded: the whole-image hash
test, the sampling loop, the voting loop and the scorer.  `hash` is the
perceptual hash of the query, `fault` a division by zero. -/
def matchQuery (index : Index) (hash : Nat) (image : CImg) (sum0 : Nat → Nat → Nat)
    (random : Nat → Nat) (SAMPLES : Int) (R : Int) : Outcome :=
  match index.pHashes.lookup hash with
  | some name => Outcome.exactMatch name
  | none =>
    match sampleLoop sum0 random image R SAMPLES.toNat 0 with
    | none => Outcome.fault
    | some imageHashes =>
      let hits := vote index.data imageHashes
      if hits.isEmpty then Outcome.noMatches
      else Outcome.bestMatch (selectBest hits).2 (selectBest hits).1

/-! ## The index builder: the scan of the corpus -/

/-- An entry of the corpus directory as the scan meets it: its path, whether it is
a regular file, the image it decodes to (`none` when `image.load` throws) and the
perceptual hash `ph_dct_imagehash` gives for it. -/
structure DirEntry where
  path : String
  isRegularFile : Bool
  decoded : Option CImg
  pHash : Nat

/-- The statement `pHashes[k] = v` on the `unordered_map`: the value of an existing
key is overwritten, a new key enters the map. -/
def mapAssign (k : Nat) (v : String) : List (Nat × String) → List (Nat × String)
  | [] => [(k, v)]
  | (k1, v1) :: t => if k1 = k then (k1, v) :: t else (k1, v1) :: mapAssign k v t

/-- The scan loop of the builder over the directory entries from entry number `n`
on, updating the index: entries that are no regular file or do not decode are
skipped; for the others the hash is stored and the grid entries are inserted.
`sum0 n` supplies the indeterminate starts of `sum` for entry `n`. -/
def buildLoop (sum0 : Nat → Nat → Nat → Nat) (R : Int) :
    Nat → List DirEntry → Index → Option Index
  | _, [], index => some index
  | n, entry :: rest, index =>
    if entry.isRegularFile then
      match entry.decoded with
      | none => buildLoop sum0 R (n + 1) rest index
      | some image =>
        match indexImage (sum0 n) entry.path image R with
        | none => none
        | some entries =>
          buildLoop sum0 R (n + 1) rest
            { data := index.data ++ entries,
              pHashes := mapAssign entry.pHash entry.path index.pHashes }
    else buildLoop sum0 R (n + 1) rest index

/-- The index the builder produces for a directory, from empty collections. -/
def buildIndex (sum0 : Nat → Nat → Nat → Nat) (R : Int) (entries : List DirEntry) :
    Option Index :=
  buildLoop sum0 R 0 entries { data := [], pHashes := [] }

/-- The images the builder processes, in scan order: the regular files that decode. -/
def processed (entries : List DirEntry) : List DirEntry :=
  entries.filter (fun e => e.isRegularFile && e.decoded.isSome)

/-! ## The index store -/

/-- An item of a text archive: a number or a string. -/
inductive Tok where
  | num (z : Int)
  | str (s : String)
deriving DecidableEq, Repr

/-- What the archive library provides for one type of value: `save` gives the
items that `ar & x` appends to an output archive, `load` is `ar & x` on an input
archive, reading a value from the front of the items and leaving the rest. -/
structure Codec (α : Type) where
  save : α → List Tok
  load : List Tok → Option (α × List Tok)

/-- The contract of the library for a collection: what was saved is loaded back,
up to the order of the elements, and the items after it are left in place. -/
def Codec.RoundTrips {β : Type} (c : Codec (List β)) : Prop :=
  ∀ (a : List β) (rest : List Tok), ∃ b, c.load (c.save a ++ rest) = some (b, rest) ∧ b.Perm a

/-- The member `fingerprint_t::serialize` on an output archive `ar`:
`ar & data; ar & pHashes;`. -/
def serializeSave (cd : Codec (List Entry)) (ch : Codec (List (Nat × String)))
    (fp_data : Index) (ar : List Tok) : List Tok :=
  (ar ++ cd.save fp_data.data) ++ ch.save fp_data.pHashes

/-- The member `fingerprint_t::serialize` on an input archive `ar`:
`ar & data; ar & pHashes;`, giving the object read and what is left of `ar`. -/
def serializeLoad (cd : Codec (List Entry)) (ch : Codec (List (Nat × String)))
    (ar : List Tok) : Option (Index × List Tok) :=
  match cd.load ar with
  | none => none
  | some (data, ar1) =>
    match ch.load ar1 with
    | none => none
    | some (pHashes, ar2) => some ({ data := data, pHashes := pHashes }, ar2)

/-- The save branch of `main`: `fingerprint_t fp_data{fingerprints, pHashes}` is
written to a fresh archive. -/
def saveIndex (cd : Codec (List Entry)) (ch : Codec (List (Nat × String)))
    (fingerprints : List Entry) (pHashes : List (Nat × String)) : List Tok :=
  serializeSave cd ch { data := fingerprints, pHashes := pHashes } []

/-- The load branch of `main`: `ia >> fp_data`, then `fingerprints = fp_data.data`
and `pHashes = fp_data.pHashes`; the pair returned is what matching uses. -/
def loadIndex (cd : Codec (List Entry)) (ch : Codec (List (Nat × String)))
    (file : List Tok) : Option Index :=
  match serializeLoad cd ch file with
  | none => none
  | some (fp_data, _) => some { data := fp_data.data, pHashes := fp_data.pHashes }

/-- A run of `main` with `--load-index`: the index is loaded from `file` and the
query is matched against it; `none` when the file does not load. -/
def mainLoad (cd : Codec (List Entry)) (ch : Codec (List (Nat × String)))
    (file : List Tok) (hash : Nat) (image : CImg) (sum0 : Nat → Nat → Nat)
    (random : Nat → Nat) (SAMPLES R : Int) : Option Outcome :=
  match loadIndex cd ch file with
  | none => none
  | some index => some (matchQuery index hash image sum0 random SAMPLES R)

/-- Loading `n` elements of a collection, each read by `dec` and inserted into the
collection `acc`. -/
def loadItems {β : Type} (dec : List Tok → Option (β × List Tok)) :
    Nat → List Tok → List β → Option (List β × List Tok)
  | 0, toks, acc => some (acc, toks)
  | n + 1, toks, acc =>
    match dec toks with
    | none => none
    | some (b, rest) => loadItems dec n rest (b :: acc)

/-- A text archive format for a collection: the number of elements, then the
elements one after the other.  Loading inserts each element in front, so the
loaded collection iterates in the opposite order. -/
def collectionCodec {β : Type} (enc : β → List Tok) (dec : List Tok → Option (β × List Tok)) :
    Codec (List β) where
  save := fun l => Tok.num l.length :: l.flatMap enc
  load := fun toks =>
    match toks with
    | Tok.num n :: rest => loadItems dec n.toNat rest []
    | _ => none

/-- Items of one entry of `data`: fingerprint, image name, position marker. -/
def encEntry (e : Entry) : List Tok := [Tok.num e.1, Tok.str e.2.1, Tok.num e.2.2]

/-- Reading of one entry of `data`. -/
def decEntry : List Tok → Option (Entry × List Tok)
  | Tok.num a :: Tok.str b :: Tok.num c :: rest => some ((a, b, c), rest)
  | _ => none

/-- Items of one entry of `pHashes`: hash, image name. -/
def encHash (e : Nat × String) : List Tok := [Tok.num e.1, Tok.str e.2]

/-- Reading of one entry of `pHashes`. -/
def decHash : List Tok → Option ((Nat × String) × List Tok)
  | Tok.num k :: Tok.str v :: rest => some ((k.toNat, v), rest)
  | _ => none

/-- The text format of the multimap `data`. -/
def textData : Codec (List Entry) := collectionCodec encEntry decEntry

/-- The text format of the map `pHashes`. -/
def textHashes : Codec (List (Nat × String)) := collectionCodec encHash decHash

/-! ## Concrete inputs -/

/-- A query image of 50 by 50 pixels, every channel value 7. -/
def square50 : CImg where
  width := 50
  height := 50
  spectrum := 3
  data := fun _ _ _ => 7

/-- A histogram of 12 populated offsets. -/
def hist12 : Hist :=
  [(0, 1), (1, 2), (2, 3), (3, 1), (4, 1), (5, 1), (6, 1), (7, 1), (8, 1), (9, 1), (10, 5), (11, 1)]

/-- A histogram of 10 populated offsets, one vote each. -/
def hist10 : Hist :=
  [(-3, 1), (-2, 1), (0, 1), (1, 1), (2, 1), (3, 1), (4, 1), (5, 1), (6, 1), (7, 1)]

/-- A query image of 200 by 120 pixels whose values vary with the position. -/
def query200 : CImg where
  width := 200
  height := 120
  spectrum := 3
  data := fun x y c => x + 2 * y + c

/-- An index of two images, as built. -/
def indexAB : Index where
  data := [(5, "a", 30), (5, "b", 45)]
  pHashes := [(42, "a"), (43, "b")]

/-- The index `indexAB` with its entries in the opposite order, as a load may
return them. -/
def indexBA : Index where
  data := [(5, "b", 45), (5, "a", 30)]
  pHashes := [(42, "a"), (43, "b")]

/-- A corpus directory of four entries: two images with the same hash, a
subdirectory and a file that does not decode. -/
def corpus4 : List DirEntry :=
  [ { path := "a.png", isRegularFile := true, decoded := some square50, pHash := 42 },
    { path := "sub", isRegularFile := false, decoded := none, pHash := 0 },
    { path := "notes.txt", isRegularFile := true, decoded := none, pHash := 0 },
    { path := "b.png", isRegularFile := true, decoded := some query200, pHash := 42 } ]

/-- An image of 100 by 100 pixels. -/
def image100 : CImg where
  width := 100
  height := 100
  spectrum := 3
  data := fun x y c => x * y + c

/-- A region of one pixel with channel values `(200, 200, 0)`. -/
def pixel200 : CImg where
  width := 1
  height := 1
  spectrum := 3
  data := fun _ _ c => if c = 2 then 0 else 200

/-- A query image of 12 by 12 pixels, every channel value 7; with `sum` starting at
zero every crop inside it has fingerprint 460551. -/
def flat12 : CImg where
  width := 12
  height := 12
  spectrum := 3
  data := fun _ _ _ => 7

/-- Ten query samples with the fingerprint 460551 at `x` from 2 to 11: what the
sampling loop gives for `flat12` with region size 2, 10 samples and the random
outputs `0, 0, 1, 1, 2, 2, ...`. -/
def tenSamples : List (Int × Int) :=
  [(460551, 2), (460551, 3), (460551, 4), (460551, 5), (460551, 6),
   (460551, 7), (460551, 8), (460551, 9), (460551, 10), (460551, 11)]

/-- An index of two images with one entry each, of the same fingerprint and marker. -/
def tieAB : Index where
  data := [(460551, "a", 100), (460551, "b", 100)]
  pHashes := [(42, "a"), (43, "b")]

/-- The index `tieAB` with its entries in the opposite order. -/
def tieBA : Index where
  data := [(460551, "b", 100), (460551, "a", 100)]
  pHashes := [(42, "a"), (43, "b")]

/-- An index in which image `a` has two entries and image `b` one. -/
def winAB : Index where
  data := [(460551, "a", 100), (460551, "b", 100), (460551, "a", 100)]
  pHashes := [(42, "a"), (43, "b")]

/-- The index `winAB` with its first two entries exchanged. -/
def winBA : Index where
  data := [(460551, "b", 100), (460551, "a", 100), (460551, "a", 100)]
  pHashes := [(42, "a"), (43, "b")]

/-! ## Theorems -/

/-- C1 (code defect): on the two-pixel region with channel means 15, 30 and 40,
`computeFingerprint` (with `sum` starting at zero) returns 990735, which is
`(15 << 16) | (30 << 8) | 15`, whereas the fingerprint of the specification,
with channel 2 in the low byte, is 990760. -/
theorem computeFingerprint_twoPixelRegion :
    computeFingerprint zeroSum twoPixelRegion = some 990735 ∧
    canonicalFingerprint twoPixelRegion = 990760 ∧
    channelMean twoPixelRegion 0 = 15 ∧ channelMean twoPixelRegion 1 = 30 ∧
    channelMean twoPixelRegion 2 = 40 := by
  decide

/-! ### The grid of regions -/

lemma mem_stepLoop (R W : Int) (hR : 1 ≤ R) :
    ∀ (fuel : Nat) (x0 x : Int), W ≤ x0 + fuel →
      (x ∈ stepLoop R W fuel x0 ↔ x < W ∧ ∃ k : Nat, x = x0 + k * R) := by
  intro fuel
  induction fuel with
  | zero =>
    intro x0 x h
    simp only [stepLoop, List.not_mem_nil, false_iff]
    rintro ⟨hx, k, rfl⟩
    have hk : (0 : Int) ≤ k * R := by positivity
    simp at h
    omega
  | succ n ih =>
    intro x0 x h
    unfold stepLoop
    by_cases hx0 : x0 < W
    · rw [if_pos hx0, List.mem_cons, ih (x0 + R) x (by push_cast at h; omega)]
      constructor
      · rintro (rfl | ⟨hx, k, rfl⟩)
        · exact ⟨hx0, 0, by simp⟩
        · exact ⟨hx, k + 1, by push_cast; ring⟩
      · rintro ⟨hx, k, rfl⟩
        cases k with
        | zero => left; simp
        | succ k => right; exact ⟨hx, k, by push_cast; ring⟩
    · rw [if_neg hx0]
      simp only [List.not_mem_nil, false_iff]
      rintro ⟨hx, k, rfl⟩
      have hk : (0 : Int) ≤ k * R := by positivity
      omega

/-- The loop variable of `for (x = R; x < W; x += R)` takes exactly the positive
multiples of `R` below `W`. -/
lemma mem_steps (R W x : Int) (hR : 1 ≤ R) :
    x ∈ steps R W ↔ x < W ∧ ∃ k : Nat, x = (k + 1) * R := by
  unfold steps
  rw [mem_stepLoop R W hR W.toNat R x (by omega)]
  constructor
  · rintro ⟨hx, k, rfl⟩
    exact ⟨hx, k, by ring⟩
  · rintro ⟨hx, k, rfl⟩
    exact ⟨hx, k, by ring⟩

lemma stepLoop_succ_fuel (R W : Int) (hR : 1 ≤ R) : ∀ (fuel : Nat) (x0 : Int),
    W ≤ x0 + fuel → stepLoop R W (fuel + 1) x0 = stepLoop R W fuel x0 := by
  intro fuel
  induction fuel with
  | zero =>
    intro x0 h
    simp only [stepLoop]
    rw [if_neg (by simp at h; omega)]
  | succ n ih =>
    intro x0 h
    show (if x0 < W then x0 :: stepLoop R W (n + 1) (x0 + R) else [])
      = (if x0 < W then x0 :: stepLoop R W n (x0 + R) else [])
    by_cases hx : x0 < W
    · rw [if_pos hx, if_pos hx, ih (x0 + R) (by push_cast at h; omega)]
    · rw [if_neg hx, if_neg hx]

/-- With `1 ≤ R` the loop `for (x = R; x < W; x += R)` has ended within `W`
iterations: more fuel gives the same values. -/
lemma stepLoop_fuel_enough (R W : Int) (hR : 1 ≤ R) : ∀ extra : Nat,
    stepLoop R W (W.toNat + extra) R = steps R W := by
  intro extra
  induction extra with
  | zero => rfl
  | succ k ih =>
    rw [← ih]
    exact stepLoop_succ_fuel R W hR (W.toNat + k) R (by push_cast; omega)

/-- Every coordinate `p` in `[0, W)` lies in a column `[x - R, x)` of the grid or
in the trailing column `[W - R, W)`; a grid column ends at or before `W`. -/
lemma column_of (R W p : Int) (hR : 1 ≤ R) (hp : 0 ≤ p) (hpW : p < W) :
    (∃ x ∈ steps R W, x - R ≤ p ∧ p < x ∧ R ≤ x ∧ x ≤ W) ∨ (W - R ≤ p ∧ p < W) := by
  have h1 := Int.emod_add_ediv p R
  have h2 := Int.emod_nonneg p (show R ≠ 0 by omega)
  have h3 := Int.emod_lt_of_pos p (show 0 < R by omega)
  have h4 : 0 ≤ p / R := Int.ediv_nonneg hp (by omega)
  by_cases h : (p / R + 1) * R < W
  · left
    refine ⟨(p / R + 1) * R, ?_, ?_, ?_, ?_, ?_⟩
    · rw [mem_steps R W _ hR]
      refine ⟨h, (p / R).toNat, ?_⟩
      rw [Int.toNat_of_nonneg h4]
    · nlinarith
    · nlinarith
    · nlinarith
    · omega
  · right
    constructor
    · nlinarith
    · exact hpW

/-- C7: for `1 ≤ R ≤ W` and `R ≤ H`, every pixel `(px, py)` of a `W` by `H` image
lies inside one of the regions the index builder crops (interior cell, bottom
strip, right strip or corner), and does so even in the half-open square
`[x0, x1) x [y0, y1)` of side `R` inside the cropped rectangle, a square that lies
wholly inside the image; nothing is assumed about `W` or `H` being multiples of
`R`. -/
theorem grid_coverage (W H R px py : Int) (hR : 1 ≤ R) (hW : R ≤ W) (hH : R ≤ H)
    (hx : 0 ≤ px ∧ px < W) (hy : 0 ≤ py ∧ py < H) :
    ∃ c ∈ regionPlan W H R, c.1.covers px py ∧
      (c.1.x0 ≤ px ∧ px < c.1.x1 ∧ c.1.y0 ≤ py ∧ py < c.1.y1) ∧
      (c.1.x1 - c.1.x0 = R ∧ c.1.y1 - c.1.y0 = R) ∧
      (0 ≤ c.1.x0 ∧ c.1.x1 ≤ W ∧ 0 ≤ c.1.y0 ∧ c.1.y1 ≤ H) := by
  have key : ∃ c ∈ regionPlan W H R,
      (c.1.x0 ≤ px ∧ px < c.1.x1 ∧ c.1.y0 ≤ py ∧ py < c.1.y1) ∧
      (c.1.x1 - c.1.x0 = R ∧ c.1.y1 - c.1.y0 = R) ∧
      (0 ≤ c.1.x0 ∧ c.1.x1 ≤ W ∧ 0 ≤ c.1.y0 ∧ c.1.y1 ≤ H) := by
    rcases column_of R W px hR hx.1 hx.2 with ⟨x, hxs, hx1, hx2, hx3, hx4⟩ | ⟨hx1, hx2⟩ <;>
    rcases column_of R H py hR hy.1 hy.2 with ⟨y, hys, hy1, hy2, hy3, hy4⟩ | ⟨hy1, hy2⟩
    · refine ⟨(({ x0 := x - R, y0 := y - R, x1 := x, y1 := y } : Rect), x), ?_, ?_⟩
      · simp only [regionPlan, List.mem_append, List.mem_flatMap, List.mem_map]
        left; left
        exact ⟨x, hxs, Or.inl ⟨y, hys, rfl⟩⟩
      · simp; omega
    · refine ⟨(({ x0 := x - R, y0 := H - R, x1 := x, y1 := H } : Rect), x), ?_, ?_⟩
      · simp only [regionPlan, List.mem_append, List.mem_flatMap, List.mem_map]
        left; left
        exact ⟨x, hxs, Or.inr (by simp)⟩
      · simp; omega
    · refine ⟨(({ x0 := W - R, y0 := y - R, x1 := W, y1 := y } : Rect), W), ?_, ?_⟩
      · simp only [regionPlan, List.mem_append, List.mem_flatMap, List.mem_map]
        left; right
        exact ⟨y, hys, rfl⟩
      · simp; omega
    · refine ⟨(({ x0 := W - R, y0 := H - R, x1 := W, y1 := H } : Rect), W), ?_, ?_⟩
      · simp only [regionPlan, List.mem_append, List.mem_flatMap, List.mem_map]
        right; simp
      · simp; omega
  obtain ⟨c, hc, hin, hside, hbox⟩ := key
  refine ⟨c, hc, ?_, hin, hside, hbox⟩
  unfold Rect.covers
  omega

/-- Witness for C7: the image of width and height 130 with regions of side 50,
at the pixel `(129, 129)` of the remainder strips. -/
theorem grid_coverage_witness :
    ∃ c ∈ regionPlan 130 130 50, c.1.covers 129 129 ∧
      (c.1.x0 ≤ 129 ∧ (129 : Int) < c.1.x1 ∧ c.1.y0 ≤ 129 ∧ (129 : Int) < c.1.y1) ∧
      (c.1.x1 - c.1.x0 = 50 ∧ c.1.y1 - c.1.y0 = 50) ∧
      (0 ≤ c.1.x0 ∧ c.1.x1 ≤ 130 ∧ 0 ≤ c.1.y0 ∧ c.1.y1 ≤ 130) :=
  grid_coverage 130 130 50 129 129 (by decide) (by decide) (by decide)
    (by decide) (by decide)

/-! ### The sliding-window score -/

lemma slidingSums_short : ∀ (l : List Nat), l.length < 10 → slidingSums l = []
  | [], _ => rfl
  | v :: t, h => by
    unfold slidingSums
    rw [if_neg (by omega)]

lemma windowSums_eq_slidingSums (h : Hist) : windowSums h = slidingSums (h.map Prod.snd) := by
  induction h with
  | nil => rfl
  | cons kv t ih =>
    unfold windowSums at ih ⊢
    simp only [List.map_cons, slidingSums, List.length_cons, List.length_map]
    by_cases hlen : 10 ≤ t.length + 1
    · rw [if_pos hlen, ← ih]
      have e : t.length + 1 - 9 = (t.length - 9) + 1 := by omega
      rw [e, List.range_succ_eq_map, List.map_cons, List.map_map]
      congr 1
    · rw [if_neg hlen]
      have e : t.length + 1 - 9 = 0 := by omega
      rw [e]
      rfl

lemma foldl_max_eq (ws : List Nat) : ∀ m : Nat, ws.foldl max m = max m (ws.foldr max 0) := by
  induction ws with
  | nil => intro m; simp
  | cons w t ih =>
    intro m
    rw [List.foldl_cons, List.foldr_cons, ih]
    omega

lemma scoreLoop_eq_foldl : ∀ (rest : Hist) (m : Nat) (q : List Nat), q.length ≤ 9 →
    scoreLoop m q.sum q rest = (slidingSums (q ++ rest.map Prod.snd)).foldl max m := by
  intro rest
  induction rest with
  | nil =>
    intro m q hq
    rw [List.map_nil, List.append_nil, slidingSums_short q (by omega)]
    rfl
  | cons kv r ih =>
    intro m q hq
    unfold scoreLoop
    simp only
    by_cases hlen : (q ++ [kv.2]).length < 10
    · rw [if_pos hlen]
      have hs : q.sum + kv.2 = (q ++ [kv.2]).sum := by simp
      rw [hs, ih m (q ++ [kv.2]) (by omega)]
      simp
    · rw [if_neg hlen]
      have hq9 : q.length = 9 := by
        simp only [List.length_append, List.length_singleton] at hlen
        omega
      cases q with
      | nil => simp at hq9
      | cons a q1 =>
        have hq1 : q1.length = 8 := by simpa using hq9
        have hs : (a :: q1).sum + kv.2 - ((a :: q1) ++ [kv.2]).headD 0 = (q1 ++ [kv.2]).sum := by
          simp
          omega
        have ht : ((a :: q1) ++ [kv.2]).tail = q1 ++ [kv.2] := rfl
        rw [hs, ht, ih _ (q1 ++ [kv.2]) (by simp [hq1])]
        have hl : 10 ≤ (a :: (q1 ++ (kv :: r).map Prod.snd)).length := by
          simp [hq1]
          omega
        have htake : (a :: (q1 ++ (kv :: r).map Prod.snd)).take 10 = a :: (q1 ++ [kv.2]) := by
          have e1 : a :: (q1 ++ (kv :: r).map Prod.snd) = (a :: (q1 ++ [kv.2])) ++ r.map Prod.snd := by
            simp
          rw [e1, List.take_left' (by simp [hq1])]
        rw [List.cons_append, slidingSums, if_pos hl, htake, List.foldl_cons]
        have e2 : q1 ++ [kv.2] ++ r.map Prod.snd = q1 ++ (kv :: r).map Prod.snd := by simp
        rw [e2]
        congr 1
        have e3 : (a :: (q1 ++ [kv.2])).sum = (a :: q1).sum + kv.2 := by
          simp
          omega
        rw [e3]
        by_cases hgt : (a :: q1).sum + kv.2 > m
        · rw [if_pos hgt]; omega
        · rw [if_neg hgt]; omega

/-- The score the scorer computes is the best 10-bucket window sum. -/
lemma imgMax_eq_bestWindow (h : Hist) : imgMax h = bestWindow h := by
  have := scoreLoop_eq_foldl h 0 [] (by simp)
  simp only [List.sum_nil, List.nil_append] at this
  unfold imgMax bestWindow
  rw [this, foldl_max_eq, windowSums_eq_slidingSums]
  omega

lemma le_foldr_max (ws : List Nat) : ∀ w ∈ ws, w ≤ ws.foldr max 0 := by
  induction ws with
  | nil => intro w hw; simp at hw
  | cons a t ih =>
    intro w hw
    rw [List.foldr_cons]
    rcases List.mem_cons.mp hw with rfl | hw
    · omega
    · have := ih w hw
      omega

lemma foldr_max_mem (ws : List Nat) (hne : ws ≠ []) : ws.foldr max 0 ∈ ws := by
  induction ws with
  | nil => exact absurd rfl hne
  | cons a t ih =>
    rw [List.foldr_cons]
    by_cases ht : t = []
    · subst ht
      simp
    · have := ih ht
      rcases le_total a (t.foldr max 0) with hle | hle
      · rw [max_eq_right hle]
        exact List.mem_cons_of_mem _ this
      · rw [max_eq_left hle]
        exact List.mem_cons_self _ _

/-- The best window sum of a histogram with at least 10 buckets is attained by
some window and bounds every window. -/
lemma bestWindow_spec (h : Hist) (hlen : 10 ≤ h.length) :
    (∃ i, i + 10 ≤ h.length ∧ bestWindow h = windowSum h i) ∧
    (∀ i, i + 10 ≤ h.length → windowSum h i ≤ bestWindow h) := by
  constructor
  · have hne : windowSums h ≠ [] := by
      unfold windowSums
      intro hnil
      have := congrArg List.length hnil
      simp at this
      omega
    have hmem := foldr_max_mem (windowSums h) hne
    unfold windowSums at hmem
    rw [List.mem_map] at hmem
    obtain ⟨i, hi, hw⟩ := hmem
    rw [List.mem_range] at hi
    exact ⟨i, by omega, hw.symm⟩
  · intro i hi
    apply le_foldr_max
    unfold windowSums
    rw [List.mem_map]
    exact ⟨i, List.mem_range.mpr (by omega), rfl⟩

/-- C3: for a histogram with at least 10 populated offsets the score `imgMax` is
the maximum of the sums of the vote counts over the runs of 10 buckets that are
consecutive in ascending offset order: it is the sum of one such run and no run
has a larger sum.  Only populated offsets are buckets of the histogram. -/
theorem imgMax_is_max_window (h : Hist) (hlen : 10 ≤ h.length) :
    (∃ i, i + 10 ≤ h.length ∧ imgMax h = windowSum h i) ∧
    (∀ i, i + 10 ≤ h.length → windowSum h i ≤ imgMax h) := by
  rw [imgMax_eq_bestWindow]
  exact bestWindow_spec h hlen

/-- Witness for C3: the 12-bucket histogram `hist12`. -/
theorem imgMax_is_max_window_witness :
    10 ≤ hist12.length ∧
    ((∃ i, i + 10 ≤ hist12.length ∧ imgMax hist12 = windowSum hist12 i) ∧
     (∀ i, i + 10 ≤ hist12.length → windowSum hist12 i ≤ imgMax hist12)) :=
  ⟨by decide, imgMax_is_max_window hist12 (by decide)⟩

/-! ### Selection of the best candidate -/

/-- Invariant of the outer loop of the scorer started in state `st`: either no
candidate beats `st` and the state is unchanged, or the state ends at the first
candidate that attains the maximum score. -/
lemma selectLoop_spec : ∀ (hits : Hits) (st : Nat × String),
    ((∀ kv ∈ hits, imgMax kv.2 ≤ st.1) ∧
      hits.foldl (fun st kvpair =>
        if imgMax kvpair.2 > st.1 then (imgMax kvpair.2, kvpair.1) else st) st = st) ∨
    (∃ (i : Nat) (c : String × Hist), hits[i]? = some c ∧
      hits.foldl (fun st kvpair =>
        if imgMax kvpair.2 > st.1 then (imgMax kvpair.2, kvpair.1) else st) st
        = (imgMax c.2, c.1) ∧
      st.1 < imgMax c.2 ∧
      (∀ kv ∈ hits, imgMax kv.2 ≤ imgMax c.2) ∧
      (∀ (j : Nat) (d : String × Hist), j < i → hits[j]? = some d → imgMax d.2 < imgMax c.2)) := by
  intro hits
  induction hits with
  | nil => intro st; left; simp
  | cons a t ih =>
    intro st
    rw [List.foldl_cons]
    by_cases hgt : imgMax a.2 > st.1
    · rw [if_pos hgt]
      rcases ih (imgMax a.2, a.1) with ⟨hall, hres⟩ | ⟨i, c, hic, hres, hlt, hall, hfirst⟩
      · right
        refine ⟨0, a, by simp, hres, hgt, ?_, ?_⟩
        · intro kv hkv
          rcases List.mem_cons.mp hkv with rfl | hkv
          · exact le_refl _
          · exact hall kv hkv
        · intro j d hj
          omega
      · right
        refine ⟨i + 1, c, by simpa using hic, hres, by simp at hlt; omega, ?_, ?_⟩
        · intro kv hkv
          rcases List.mem_cons.mp hkv with rfl | hkv
          · simp at hlt; omega
          · exact hall kv hkv
        · intro j d hj hd
          cases j with
          | zero =>
            simp at hd
            subst hd
            simpa using hlt
          | succ j => exact hfirst j d (by omega) (by simpa using hd)
    · rw [if_neg hgt]
      rcases ih st with ⟨hall, hres⟩ | ⟨i, c, hic, hres, hlt, hall, hfirst⟩
      · left
        refine ⟨?_, hres⟩
        intro kv hkv
        rcases List.mem_cons.mp hkv with rfl | hkv
        · omega
        · exact hall kv hkv
      · right
        refine ⟨i + 1, c, by simpa using hic, hres, hlt, ?_, ?_⟩
        · intro kv hkv
          rcases List.mem_cons.mp hkv with rfl | hkv
          · omega
          · exact hall kv hkv
        · intro j d hj hd
          cases j with
          | zero =>
            simp at hd
            subst hd
            omega
          | succ j => exact hfirst j d (by omega) (by simpa using hd)

lemma one_le_sum : ∀ (l : List Nat), l ≠ [] → (∀ x ∈ l, 1 ≤ x) → 1 ≤ l.sum
  | [], h, _ => absurd rfl h
  | a :: t, _, h => by
    have := h a (List.mem_cons_self _ _)
    rw [List.sum_cons]
    omega

/-- A histogram with at least 10 buckets, each holding a vote, has a positive
best window sum. -/
lemma bestWindow_pos (h : Hist) (hten : 10 ≤ h.length) (hpop : ∀ b ∈ h, 1 ≤ b.2) :
    0 < bestWindow h := by
  have h0 := (bestWindow_spec h hten).2 0 (by omega)
  have h1 : 1 ≤ windowSum h 0 := by
    unfold windowSum
    apply one_le_sum
    · intro hnil
      have := congrArg List.length hnil
      rw [List.length_take, List.length_drop, List.length_map, List.length_nil] at this
      omega
    · intro x hx
      have hx1 : x ∈ h.map Prod.snd := by
        have := List.mem_of_mem_take hx
        simpa using this
      rw [List.mem_map] at hx1
      obtain ⟨b, hb, rfl⟩ := hx1
      exact hpop b hb
  omega

/-- C4 (as amended): in a non-empty collection of candidate histograms, a
candidate whose best 10-bucket window sum is positive and strictly exceeds that
of every other candidate is reported as the best match, with that window sum as
the score. -/
theorem selectBest_strict_winner (hits : Hits) (i : Nat) (c : String × Hist)
    (hi : hits[i]? = some c) (hpos : 0 < bestWindow c.2)
    (hwin : ∀ (j : Nat) (d : String × Hist), j ≠ i → hits[j]? = some d →
      bestWindow d.2 < bestWindow c.2) :
    selectBest hits = (bestWindow c.2, c.1) := by
  have hmem : c ∈ hits := List.getElem?_mem hi
  unfold selectBest
  rcases selectLoop_spec hits (0, "") with ⟨hall, _⟩ | ⟨k, d, hk, hres, _, hall, _⟩
  · have := hall c hmem
    rw [imgMax_eq_bestWindow] at this
    simp at this
    omega
  · by_cases hki : k = i
    · subst hki
      rw [hi] at hk
      cases hk
      rw [hres, imgMax_eq_bestWindow]
    · have h1 := hwin k d hki hk
      have h2 := hall c hmem
      rw [imgMax_eq_bestWindow, imgMax_eq_bestWindow] at h2
      omega

/-- Witness for C4: candidate `b` with the 12-bucket histogram against candidate
`a` with 10 single votes. -/
theorem selectBest_strict_winner_witness :
    selectBest [("a", hist10), ("b", hist12)] = (bestWindow hist12, "b") :=
  selectBest_strict_winner [("a", hist10), ("b", hist12)] 1 ("b", hist12) rfl
    (by decide)
    (by
      intro j d hj hd
      cases j with
      | zero =>
        simp at hd
        subst hd
        decide
      | succ j =>
        cases j with
        | zero => exact absurd rfl hj
        | succ j => simp at hd)

/-- C4 (counterexample): the collection with the one candidate `a` and one
populated offset is not empty, and no other candidate has a window sum as large
as that of `a`; yet the scorer reports the empty name, not `a`.  So the claim
does not hold for every non-empty collection with a strict winner. -/
theorem selectBest_lone_candidate_not_reported :
    ([("a", [(25, 1)])] : Hits) ≠ [] ∧
    vote [(7, "a", 40)] [(7, 15)] = [("a", [(25, 1)])] ∧
    selectBest [("a", [(25, 1)])] = (0, "") ∧
    ¬ (∀ (hits : Hits) (i : Nat) (c : String × Hist), hits ≠ [] → hits[i]? = some c →
        (∀ (j : Nat) (d : String × Hist), j ≠ i → hits[j]? = some d →
          bestWindow d.2 < bestWindow c.2) →
        selectBest hits = (bestWindow c.2, c.1)) := by
  refine ⟨by decide, by decide, by decide, ?_⟩
  intro hclaim
  have h := hclaim [("a", [(25, 1)])] 0 ("a", [(25, 1)]) (by decide) rfl (by
    intro j d hj hd
    cases j with
    | zero => exact absurd rfl hj
    | succ j => simp at hd)
  revert h
  decide

/-- C5 (as amended): when some candidate has a positive windowed score, the
reported best match is a candidate of `hits`, namely the first one in iteration
order whose windowed score equals the maximum score over all candidates, and the
reported number is that score. -/
theorem selectBest_first_maximal (hits : Hits) (hpos : ∃ kv ∈ hits, 0 < imgMax kv.2) :
    ∃ (i : Nat) (c : String × Hist), hits[i]? = some c ∧
      selectBest hits = (imgMax c.2, c.1) ∧
      (∀ kv ∈ hits, imgMax kv.2 ≤ imgMax c.2) ∧
      (∀ (j : Nat) (d : String × Hist), j < i → hits[j]? = some d → imgMax d.2 < imgMax c.2) := by
  unfold selectBest
  rcases selectLoop_spec hits (0, "") with ⟨hall, _⟩ | ⟨k, d, hk, hres, _, hall, hfirst⟩
  · obtain ⟨kv, hkv, hp⟩ := hpos
    have := hall kv hkv
    simp at this
    omega
  · exact ⟨k, d, hk, hres, hall, hfirst⟩

/-- Witness for C5: two candidates with equal scores; the first is reported. -/
theorem selectBest_first_maximal_witness :
    ∃ (i : Nat) (c : String × Hist), [("a", hist10), ("b", hist10)][i]? = some c ∧
      selectBest [("a", hist10), ("b", hist10)] = (imgMax c.2, c.1) ∧
      (∀ kv ∈ [("a", hist10), ("b", hist10)], imgMax kv.2 ≤ imgMax c.2) ∧
      (∀ (j : Nat) (d : String × Hist), j < i →
        [("a", hist10), ("b", hist10)][j]? = some d → imgMax d.2 < imgMax c.2) :=
  selectBest_first_maximal [("a", hist10), ("b", hist10)]
    ⟨("a", hist10), List.mem_cons_self _ _, by decide⟩

/-- C5 (counterexample): one query sample matches one index entry, so `hits` is
not empty, yet the scorer reports the empty name with score 0, which is no
candidate of `hits`. -/
theorem selectBest_reports_no_candidate :
    vote [(5, "a", 30)] [(5, 20)] = [("a", [(10, 1)])] ∧
    selectBest (vote [(5, "a", 30)] [(5, 20)]) = (0, "") ∧
    ¬ ∃ kv ∈ vote [(5, "a", 30)] [(5, 20)], kv.1 = (selectBest (vote [(5, "a", 30)] [(5, 20)])).2 := by
  decide

/-! ### Exact-match precedence -/

/-- C2: when the query hash is a key of `pHashes`, the result is the exact match
naming the image mapped to that hash, whatever the fingerprint entries, the
sample count, the region size, the random stream and the query pixels are. -/
theorem exact_match_precedence (index : Index) (hash : Nat) (name : String) (image : CImg)
    (sum0 : Nat → Nat → Nat) (random : Nat → Nat) (SAMPLES R : Int)
    (hkey : index.pHashes.lookup hash = some name) :
    matchQuery index hash image sum0 random SAMPLES R = Outcome.exactMatch name ∧
    ∀ (data2 : List Entry) (sum2 : Nat → Nat → Nat) (random2 : Nat → Nat) (SAMPLES2 R2 : Int),
      matchQuery { data := data2, pHashes := index.pHashes } hash image sum2 random2 SAMPLES2 R2
        = matchQuery index hash image sum0 random SAMPLES R := by
  constructor
  · unfold matchQuery
    rw [hkey]
  · intro data2 sum2 random2 SAMPLES2 R2
    unfold matchQuery
    simp only [hkey]

/-- Witness for C2: a 50 by 50 query with region size 50, for which the sampled
path would divide by zero, is still reported as the exact match `a.png`. -/
theorem exact_match_precedence_witness :
    matchQuery { data := [], pHashes := [(42, "a.png")] } 42 square50 (fun _ _ => 0)
        (fun _ => 16807) 5000 50 = Outcome.exactMatch "a.png" ∧
    ∀ (data2 : List Entry) (sum2 : Nat → Nat → Nat) (random2 : Nat → Nat) (SAMPLES2 R2 : Int),
      matchQuery { data := data2, pHashes := [(42, "a.png")] } 42 square50 sum2 random2 SAMPLES2 R2
        = matchQuery { data := [], pHashes := [(42, "a.png")] } 42 square50 (fun _ _ => 0)
            (fun _ => 16807) 5000 50 :=
  exact_match_precedence { data := [], pHashes := [(42, "a.png")] } 42 "a.png" square50
    (fun _ _ => 0) (fun _ => 16807) 5000 50 (by decide)

/-! ### Sampled positions -/

lemma toU64_of_nonneg (z : Int) (h0 : 0 ≤ z) (h1 : z < 2 ^ 64) : toU64 z = z.toNat := by
  unfold toU64
  rw [Int.emod_eq_of_lt h0 h1]

lemma toI32_of_lt (n : Nat) (h : n < 2 ^ 31) : toI32 n = n := by
  unfold toI32
  have h1 : ((n : Int) + 2 ^ 31) % 2 ^ 32 = (n : Int) + 2 ^ 31 := by
    apply Int.emod_eq_of_lt <;> omega
  rw [h1]
  ring

/-- For `0 ≤ R < dim` the modulus `dim - R` is not zero and the coordinate lies in
`[R, dim)`. -/
lemma sampleCoord_spec (r dim : Nat) (R : Int) (hR : 0 ≤ R) (hlt : R < dim)
    (hint : dim < 2 ^ 31) :
    toU64 ((dim : Int) - R) ≠ 0 ∧ ∃ x, sampleCoord r dim R = some x ∧ R ≤ x ∧ x < dim := by
  have hm : toU64 ((dim : Int) - R) = ((dim : Int) - R).toNat :=
    toU64_of_nonneg _ (by omega) (by omega)
  have hR64 : toU64 R = R.toNat := toU64_of_nonneg _ hR (by omega)
  have hmpos : 0 < ((dim : Int) - R).toNat := by omega
  have hmod : r % ((dim : Int) - R).toNat < ((dim : Int) - R).toNat := Nat.mod_lt _ hmpos
  refine ⟨by omega, ?_⟩
  unfold sampleCoord
  rw [if_neg (by omega), hm, hR64]
  have hsmall : r % ((dim : Int) - R).toNat + R.toNat < 2 ^ 31 := by omega
  rw [Nat.mod_eq_of_lt (by omega), toI32_of_lt _ hsmall]
  refine ⟨_, rfl, ?_, ?_⟩
  · push_cast
    omega
  · push_cast
    omega

/-- C8 (as amended): for a query image of width `W` and height `H` and a region
size `R` with `0 ≤ R < W` and `R < H`, whatever the random outputs are, every
sample has a position `(x, y)` with `R ≤ x < W` and `R ≤ y < H`, all pixel
coordinates of the crop handed to `computeFingerprint` lie in `[0, W) x [0, H)`,
and neither modulus is zero. -/
theorem sample_crop_in_bounds (random : Nat → Nat) (image : CImg) (R : Int) (i : Nat)
    (hR : 0 ≤ R) (hW : R < image.width) (hH : R < image.height)
    (hWint : image.width < 2 ^ 31) (hHint : image.height < 2 ^ 31) :
    toU64 ((image.width : Int) - R) ≠ 0 ∧ toU64 ((image.height : Int) - R) ≠ 0 ∧
    ∃ pos, samplePosition random image R i = some pos ∧
      (R ≤ pos.1 ∧ pos.1 < image.width ∧ R ≤ pos.2 ∧ pos.2 < image.height) ∧
      ∀ px py : Int, (sampleRect R pos).covers px py →
        0 ≤ px ∧ px < image.width ∧ 0 ≤ py ∧ py < image.height := by
  obtain ⟨hmx, x, hx, hx1, hx2⟩ := sampleCoord_spec (random (2 * i)) image.width R hR hW hWint
  obtain ⟨hmy, y, hy, hy1, hy2⟩ :=
    sampleCoord_spec (random (2 * i + 1)) image.height R hR hH hHint
  refine ⟨hmx, hmy, (x, y), ?_, ⟨hx1, hx2, hy1, hy2⟩, ?_⟩
  · unfold samplePosition
    rw [hx, hy]
  · intro px py hc
    unfold Rect.covers sampleRect at hc
    simp only at hc
    omega

/-- Witness for C8: sample number 3 of a 200 by 120 query with region size 50. -/
theorem sample_crop_in_bounds_witness :
    toU64 ((query200.width : Int) - 50) ≠ 0 ∧ toU64 ((query200.height : Int) - 50) ≠ 0 ∧
    ∃ pos, samplePosition (fun k => 16807 * (k + 1)) query200 50 3 = some pos ∧
      ((50 : Int) ≤ pos.1 ∧ pos.1 < query200.width ∧ (50 : Int) ≤ pos.2 ∧
        pos.2 < query200.height) ∧
      ∀ px py : Int, (sampleRect 50 pos).covers px py →
        0 ≤ px ∧ px < query200.width ∧ 0 ≤ py ∧ py < query200.height :=
  sample_crop_in_bounds (fun k => 16807 * (k + 1)) query200 50 3 (by decide) (by decide)
    (by decide) (by decide) (by decide)

/-- C8 (counterexample): for a 50 by 50 query and region size 50 the modulus is
zero, so no position is computed; for region size 60 the position is computed
but the crop leaves the image. -/
theorem sample_position_fails :
    samplePosition (fun _ => 16807) square50 50 0 = none ∧
    samplePosition (fun _ => 16807) square50 60 0 = some (16867, 16867) ∧
    (sampleRect 60 (16867, 16867)).covers 16867 16867 ∧
    ¬ ((16867 : Int) < square50.width) := by
  decide

/-! ### Empty index -/

/-- C9 (code defect): matching a 50 by 50 query with the default region size 50
and 5000 samples against the empty index ends in a division by zero instead
of `noMatches`, whatever the query hash and the random outputs are. -/
theorem matchQuery_empty_index_faults (hash : Nat) (sum0 : Nat → Nat → Nat)
    (random : Nat → Nat) :
    matchQuery { data := [], pHashes := [] } hash square50 sum0 random 5000 50
      = Outcome.fault := by
  have hpos : samplePosition random square50 50 0 = none := by
    unfold samplePosition sampleCoord
    simp [square50, toU64]
  have hloop : ∀ n, sampleLoop sum0 random square50 50 (n + 1) 0 = none := by
    intro n
    unfold sampleLoop
    rw [hpos]
  have h5000 : (5000 : Int).toNat = 4999 + 1 := by decide
  unfold matchQuery
  simp only [List.lookup]
  rw [h5000, hloop]

/-! ### Voting -/

lemma floatShift_of_lt (a : Nat) (h : a < 2 ^ 24) : floatShift a = 0 := by
  unfold floatShift
  rw [List.length_eq_zero, List.filter_eq_nil_iff]
  intro e _
  have : 2 ^ 24 ≤ 2 ^ (24 + e) := Nat.pow_le_pow_right (by decide) (by omega)
  simp only [decide_eq_true_eq]
  omega

/-- Integers of magnitude at most `2 ^ 24` are exact as `float`. -/
lemma floatOfInt_of_small (d : Int) (h : d.natAbs ≤ 2 ^ 24) : floatOfInt d = d := by
  rcases Nat.lt_or_ge d.natAbs (2 ^ 24) with hlt | hge
  · unfold floatOfInt
    simp only [floatShift_of_lt _ hlt]
    simp [Nat.mod_one, Int.sign_mul_abs]
  · have he : d.natAbs = 2 ^ 24 := by omega
    rcases Int.natAbs_eq d with hd | hd
    · rw [hd, he]; decide
    · rw [hd, he]; decide

lemma lookup_head {α β : Type} [BEq α] [LawfulBEq α] (k : α) (v : β) (l : List (α × β)) :
    List.lookup k ((k, v) :: l) = some v := by
  simp [List.lookup]

lemma lookup_tail {α β : Type} [BEq α] [LawfulBEq α] (k k1 : α) (v : β) (l : List (α × β))
    (h : k ≠ k1) : List.lookup k ((k1, v) :: l) = List.lookup k l := by
  have hb : (k == k1) = false := by simpa using h
  simp [List.lookup, hb]

lemma voteSample_eq (fingerprints : List Entry) (hits : Hits) (p : Int × Int) :
    voteSample fingerprints hits p =
      ((equal_range fingerprints p.1).map (fun it => (it.2.1, floatOfInt (it.2.2 - p.2)))).foldl
        (fun hits v => hitsIncr v.1 v.2 hits) hits := by
  unfold voteSample
  rw [List.foldl_map]
  split
  · rfl
  · rename_i h
    have h0 : fingerprints.countP (fun e => e.1 = p.1) = 0 := not_not.mp h
    rw [List.countP_eq_zero] at h0
    have : equal_range fingerprints p.1 = [] := by
      unfold equal_range
      rw [List.filter_eq_nil_iff]
      exact h0
    rw [this]
    rfl

lemma foldl_voteSample (fingerprints : List Entry) (imageHashes : List (Int × Int)) :
    ∀ hits : Hits, imageHashes.foldl (voteSample fingerprints) hits =
      (votesOf fingerprints imageHashes).foldl (fun hits v => hitsIncr v.1 v.2 hits) hits := by
  induction imageHashes with
  | nil => intro hits; rfl
  | cons p t ih =>
    intro hits
    unfold votesOf at ih ⊢
    rw [List.foldl_cons, List.flatMap_cons, List.foldl_append, ih, voteSample_eq]

/-- The voting loops are a fold of `hits[c][k]++` over the votes cast. -/
lemma vote_eq (fingerprints : List Entry) (imageHashes : List (Int × Int)) :
    vote fingerprints imageHashes =
      (votesOf fingerprints imageHashes).foldl (fun hits v => hitsIncr v.1 v.2 hits) [] :=
  foldl_voteSample fingerprints imageHashes []

lemma lookup_hitsIncr (c : String) (k : Int) (c2 : String) : ∀ hits : Hits,
    (hitsIncr c k hits).lookup c2 =
      if c2 = c then some (histIncr k (histOf hits c)) else hits.lookup c2 := by
  intro hits
  induction hits with
  | nil =>
    by_cases h : c2 = c
    · subst h
      rw [if_pos rfl]
      unfold hitsIncr histOf
      rw [lookup_head]
      rfl
    · rw [if_neg h]
      unfold hitsIncr
      rw [lookup_tail _ _ _ _ h]
  | cons a t ih =>
    obtain ⟨c1, h1⟩ := a
    unfold hitsIncr
    by_cases hc1 : c1 = c
    · subst hc1
      rw [if_pos rfl]
      by_cases h : c2 = c1
      · subst h
        rw [if_pos rfl, lookup_head]
        unfold histOf
        rw [lookup_head]
        rfl
      · rw [if_neg h, lookup_tail _ _ _ _ h, lookup_tail _ _ _ _ h]
    · rw [if_neg hc1]
      by_cases h : c2 = c
      · subst h
        have hne : c2 ≠ c1 := fun e => hc1 e.symm
        rw [if_pos rfl, lookup_tail _ _ _ _ hne, ih, if_pos rfl]
        unfold histOf
        rw [lookup_tail _ _ _ _ hne]
      · rw [if_neg h]
        by_cases h2 : c2 = c1
        · subst h2
          rw [lookup_head, lookup_head]
        · rw [lookup_tail _ _ _ _ h2, lookup_tail _ _ _ _ h2, ih, if_neg h]

lemma lookup_foldl_hitsIncr (c : String) : ∀ (votes : List (String × Int)) (hits : Hits),
    (votes.foldl (fun hits v => hitsIncr v.1 v.2 hits) hits).lookup c =
      if votes.filter (fun v => v.1 = c) = [] then hits.lookup c
      else some ((((votes.filter (fun v => v.1 = c)).map Prod.snd).foldl
        (fun h k => histIncr k h) (histOf hits c))) := by
  intro votes
  induction votes with
  | nil => intro hits; simp
  | cons v t ih =>
    intro hits
    rw [List.foldl_cons, ih]
    by_cases hv : v.1 = c
    · have hf : (v :: t).filter (fun v => v.1 = c) = v :: t.filter (fun v => v.1 = c) := by
        simp [List.filter_cons, hv]
      rw [hf, if_neg (List.cons_ne_nil v (t.filter (fun v => v.1 = c))), List.map_cons,
        List.foldl_cons]
      have hh : histOf (hitsIncr v.1 v.2 hits) c = histIncr v.2 (histOf hits c) := by
        unfold histOf
        rw [lookup_hitsIncr, if_pos hv.symm, hv]
        rfl
      by_cases hnil : t.filter (fun v => v.1 = c) = []
      · rw [if_pos hnil, hnil, lookup_hitsIncr, if_pos hv.symm, hv]
        rfl
      · rw [if_neg hnil, hh]
    · have hf : (v :: t).filter (fun v => v.1 = c) = t.filter (fun v => v.1 = c) := by
        simp [List.filter_cons, hv]
      have hne : ¬ c = v.1 := fun e => hv e.symm
      have hh : histOf (hitsIncr v.1 v.2 hits) c = histOf hits c := by
        unfold histOf
        rw [lookup_hitsIncr, if_neg hne]
      rw [hf, hh, lookup_hitsIncr, if_neg hne]

lemma key_of_mem_histIncr (k : Int) : ∀ (h : Hist) (b : Int × Nat),
    b ∈ histIncr k h → b.1 = k ∨ ∃ a ∈ h, a.1 = b.1 := by
  intro h
  induction h with
  | nil =>
    intro b hb
    simp only [histIncr, List.mem_singleton] at hb
    left; rw [hb]
  | cons a t ih =>
    obtain ⟨k1, n⟩ := a
    intro b hb
    unfold histIncr at hb
    by_cases h1 : k < k1
    · rw [if_pos h1] at hb
      rcases List.mem_cons.mp hb with rfl | hb
      · left; rfl
      · right; exact ⟨b, hb, rfl⟩
    · rw [if_neg h1] at hb
      by_cases h2 : k = k1
      · rw [if_pos h2] at hb
        rcases List.mem_cons.mp hb with rfl | hb
        · left; exact h2.symm
        · right; exact ⟨b, List.mem_cons_of_mem _ hb, rfl⟩
      · rw [if_neg h2] at hb
        rcases List.mem_cons.mp hb with rfl | hb
        · right; exact ⟨(k1, n), List.mem_cons_self _ _, rfl⟩
        · rcases ih b hb with hk | ⟨a, ha, hab⟩
          · left; exact hk
          · right; exact ⟨a, List.mem_cons_of_mem _ ha, hab⟩

/-- The statement `m[k]++` keeps the keys in ascending order. -/
lemma histIncr_ascending (k : Int) : ∀ h : Hist, keysAscending h → keysAscending (histIncr k h) := by
  intro h
  induction h with
  | nil => intro _; simp [histIncr, keysAscending]
  | cons a t ih =>
    obtain ⟨k1, n⟩ := a
    intro hs
    unfold keysAscending at hs ih ⊢
    rw [List.pairwise_cons] at hs
    unfold histIncr
    by_cases h1 : k < k1
    · rw [if_pos h1, List.pairwise_cons]
      refine ⟨?_, List.pairwise_cons.mpr hs⟩
      intro b hb
      rcases List.mem_cons.mp hb with rfl | hb
      · exact h1
      · have := hs.1 b hb
        simp only at this ⊢
        omega
    · rw [if_neg h1]
      by_cases h2 : k = k1
      · rw [if_pos h2, List.pairwise_cons]
        exact ⟨hs.1, hs.2⟩
      · rw [if_neg h2, List.pairwise_cons]
        refine ⟨?_, ih hs.2⟩
        intro b hb
        rcases key_of_mem_histIncr k t b hb with hk | ⟨a, ha, hab⟩
        · simp only
          omega
        · have := hs.1 a ha
          simp only at this ⊢
          omega

lemma lookup_none_of_lt (k : Int) : ∀ h : Hist, (∀ b ∈ h, k < b.1) → h.lookup k = none := by
  intro h
  induction h with
  | nil => intro _; rfl
  | cons a t ih =>
    obtain ⟨k1, n⟩ := a
    intro hall
    have h1 : k < k1 := hall (k1, n) (List.mem_cons_self _ _)
    rw [lookup_tail k k1 n t (by omega)]
    exact ih (fun b hb => hall b (List.mem_cons_of_mem _ hb))

/-- The count read back after `m[k]++` on a map with ascending keys. -/
lemma lookup_histIncr (k k2 : Int) : ∀ h : Hist, keysAscending h →
    (histIncr k h).lookup k2 =
      if k2 = k then some ((h.lookup k).getD 0 + 1) else h.lookup k2 := by
  intro h
  induction h with
  | nil =>
    intro _
    unfold histIncr
    by_cases hk : k2 = k
    · subst hk
      rw [if_pos rfl, lookup_head]
      rfl
    · rw [if_neg hk, lookup_tail _ _ _ _ hk]
  | cons a t ih =>
    obtain ⟨k1, n⟩ := a
    intro hs
    unfold keysAscending at hs ih
    rw [List.pairwise_cons] at hs
    unfold histIncr
    by_cases h1 : k < k1
    · rw [if_pos h1]
      have hnone : List.lookup k ((k1, n) :: t) = none := by
        apply lookup_none_of_lt
        intro b hb
        rcases List.mem_cons.mp hb with rfl | hb
        · exact h1
        · have := hs.1 b hb
          simp only at this
          omega
      by_cases hk : k2 = k
      · subst hk
        rw [if_pos rfl, lookup_head, hnone]
        rfl
      · rw [if_neg hk, lookup_tail _ _ _ _ hk]
    · rw [if_neg h1]
      by_cases h2 : k = k1
      · subst h2
        rw [if_pos rfl]
        by_cases hk : k2 = k
        · subst hk
          rw [if_pos rfl, lookup_head, lookup_head]
          rfl
        · rw [if_neg hk, lookup_tail _ _ _ _ hk, lookup_tail _ _ _ _ hk]
      · rw [if_neg h2]
        by_cases hk : k2 = k
        · subst hk
          rw [if_pos rfl, lookup_tail _ _ _ _ h2, lookup_tail _ _ _ _ h2, ih hs.2, if_pos rfl]
        · rw [if_neg hk]
          by_cases hk1 : k2 = k1
          · subst hk1
            rw [lookup_head, lookup_head]
          · rw [lookup_tail _ _ _ _ hk1, lookup_tail _ _ _ _ hk1, ih hs.2, if_neg hk]

lemma foldl_histIncr_ascending : ∀ (keys : List Int) (h : Hist), keysAscending h →
    keysAscending (keys.foldl (fun h k => histIncr k h) h) := by
  intro keys
  induction keys with
  | nil => intro h hs; exact hs
  | cons k t ih =>
    intro h hs
    rw [List.foldl_cons]
    exact ih _ (histIncr_ascending k h hs)

/-- The count read back after a sequence of increments: the number of increments
of that key on top of what was stored. -/
lemma lookup_foldl_histIncr (k2 : Int) : ∀ (keys : List Int) (h : Hist), keysAscending h →
    (keys.foldl (fun h k => histIncr k h) h).lookup k2 =
      if keys.count k2 = 0 then h.lookup k2
      else some ((h.lookup k2).getD 0 + keys.count k2) := by
  intro keys
  induction keys with
  | nil => intro h _; simp
  | cons k t ih =>
    intro h hs
    rw [List.foldl_cons, ih _ (histIncr_ascending k h hs), lookup_histIncr k k2 h hs]
    by_cases hk : k2 = k
    · subst hk
      rw [if_pos rfl, List.count_cons_self]
      by_cases h0 : List.count k2 t = 0
      · rw [if_pos h0, if_neg (by omega), h0]
      · rw [if_neg h0, if_neg (by omega)]
        simp only [Option.getD_some]
        congr 1
        omega
    · rw [if_neg hk, List.count_cons_of_ne hk]

/-- Two increments of a `map<float, int>` commute. -/
lemma histIncr_comm (a b : Int) : ∀ h : Hist,
    histIncr a (histIncr b h) = histIncr b (histIncr a h) := by
  intro h
  induction h with
  | nil =>
    simp only [histIncr]
    rcases lt_trichotomy a b with hab | hab | hab
    · rw [if_pos hab, if_neg (by omega), if_neg (by omega)]
    · subst hab; rfl
    · rw [if_neg (by omega), if_neg (by omega), if_pos hab]
  | cons x t ih =>
    obtain ⟨k1, n⟩ := x
    rcases lt_trichotomy a k1 with ha | ha | ha <;>
    rcases lt_trichotomy b k1 with hb | hb | hb
    · rcases lt_trichotomy a b with hab | hab | hab
      · simp [histIncr, ha, hb, hab, not_lt_of_gt hab, ne_of_gt hab]
      · subst hab; rfl
      · simp [histIncr, ha, hb, hab, not_lt_of_gt hab, ne_of_gt hab]
    · subst hb
      simp [histIncr, ha, not_lt_of_gt ha, ne_of_gt ha]
    · simp [histIncr, ha, not_lt_of_gt hb, ne_of_gt hb, lt_trans ha hb,
        not_lt_of_gt (lt_trans ha hb), ne_of_gt (lt_trans ha hb)]
    · subst ha
      simp [histIncr, hb, not_lt_of_gt hb, ne_of_gt hb]
    · subst ha; subst hb; rfl
    · subst ha
      simp [histIncr, not_lt_of_gt hb, ne_of_gt hb]
    · simp [histIncr, hb, not_lt_of_gt ha, ne_of_gt ha, lt_trans hb ha,
        not_lt_of_gt (lt_trans hb ha), ne_of_gt (lt_trans hb ha)]
    · subst hb
      simp [histIncr, not_lt_of_gt ha, ne_of_gt ha]
    · simp [histIncr, not_lt_of_gt ha, ne_of_gt ha, not_lt_of_gt hb, ne_of_gt hb, ih]

lemma count_map_filter (c : String) (k : Int) : ∀ votes : List (String × Int),
    ((votes.filter (fun v => v.1 = c)).map Prod.snd).count k =
      votes.countP (fun v => v.1 = c ∧ v.2 = k) := by
  intro votes
  induction votes with
  | nil => rfl
  | cons v t ih =>
    by_cases hc : v.1 = c
    · by_cases hk : v.2 = k
      · simp [List.filter_cons, List.countP_cons, hc, hk, ih]
      · have hk2 : ¬ k = v.2 := fun e => hk e.symm
        simp [List.filter_cons, List.countP_cons, hc, hk, ih, List.count_cons, hk2]
    · simp [List.filter_cons, List.countP_cons, hc, ih]

/-- What the voting loops store under `hits[c][k]`: the number of votes cast for
candidate `c` with key `k`, and nothing when there is no such vote. -/
lemma storedCount_vote (fingerprints : List Entry) (imageHashes : List (Int × Int))
    (c : String) (k : Int) :
    storedCount (vote fingerprints imageHashes) c k =
      if (votesOf fingerprints imageHashes).countP (fun v => v.1 = c ∧ v.2 = k) = 0 then none
      else some ((votesOf fingerprints imageHashes).countP (fun v => v.1 = c ∧ v.2 = k)) := by
  unfold storedCount
  rw [vote_eq, lookup_foldl_hitsIncr, ← count_map_filter]
  by_cases hnil : (votesOf fingerprints imageHashes).filter (fun v => v.1 = c) = []
  · rw [if_pos hnil, hnil]
    rfl
  · rw [if_neg hnil]
    simp only
    have hasc : keysAscending (histOf [] c) := by
      unfold keysAscending histOf
      simp
    rw [lookup_foldl_histIncr k _ _ hasc]
    have hl : (histOf [] c).lookup k = none := rfl
    rw [hl]
    simp

/-- The votes for `(c, d)` are the matching pairs with offset `d`, when the offsets
of matching pairs are exact as `float`. -/
lemma countP_votesOf (fingerprints : List Entry) (c : String) (d : Int) :
    ∀ imageHashes : List (Int × Int),
      (∀ s ∈ imageHashes, ∀ e ∈ fingerprints, e.1 = s.1 → (e.2.2 - s.2).natAbs ≤ 2 ^ 24) →
      (votesOf fingerprints imageHashes).countP (fun v => v.1 = c ∧ v.2 = d) =
        pairCount fingerprints imageHashes c d := by
  intro imageHashes
  induction imageHashes with
  | nil => intro _; rfl
  | cons s t ih =>
    intro hrange
    have iht := ih (fun s1 hs1 e he => hrange s1 (List.mem_cons_of_mem _ hs1) e he)
    unfold votesOf pairCount at iht ⊢
    rw [List.flatMap_cons, List.countP_append, iht, List.map_cons, List.sum_cons]
    congr 1
    unfold equal_range
    rw [List.countP_map, List.countP_filter]
    apply List.countP_congr
    intro e he
    have hr := hrange s (List.mem_cons_self _ _) e he
    simp only [Function.comp, Bool.and_eq_true, decide_eq_true_eq]
    constructor
    · rintro ⟨⟨h1, h2⟩, h3⟩
      rw [floatOfInt_of_small _ (hr h3)] at h2
      exact ⟨h3, h1, h2⟩
    · rintro ⟨h3, h1, h2⟩
      refine ⟨⟨h1, ?_⟩, h3⟩
      rw [floatOfInt_of_small _ (hr h3)]
      exact h2

/-- C6 (as amended): when the offset of every matching pair (query sample, index
entry with the same fingerprint) has magnitude at most `2 ^ 24`, then after
voting the count stored at `hits[c][d]` is the number of matching pairs whose
entry names image `c` and whose offset (position marker minus sample `x`) is
`d`, and the key `(c, d)` is present exactly when that number is at least 1; a
sample that matches no entry leaves `hits` unchanged. -/
theorem vote_counts_pairs (fingerprints : List Entry) (imageHashes : List (Int × Int))
    (hrange : ∀ s ∈ imageHashes, ∀ e ∈ fingerprints, e.1 = s.1 →
      (e.2.2 - s.2).natAbs ≤ 2 ^ 24) :
    (∀ (c : String) (d : Int),
      storedCount (vote fingerprints imageHashes) c d =
        if pairCount fingerprints imageHashes c d = 0 then none
        else some (pairCount fingerprints imageHashes c d)) ∧
    (∀ (hits : Hits) (p : Int × Int), (∀ e ∈ fingerprints, e.1 ≠ p.1) →
      voteSample fingerprints hits p = hits) := by
  constructor
  · intro c d
    rw [storedCount_vote, countP_votesOf fingerprints c d imageHashes hrange]
  · intro hits p hno
    unfold voteSample
    have h0 : fingerprints.countP (fun e => e.1 = p.1) = 0 := by
      rw [List.countP_eq_zero]
      intro e he
      simpa using hno e he
    rw [h0]
    rfl

/-- Witness for C6: two samples against three entries of two images. -/
theorem vote_counts_pairs_witness :
    (∀ (c : String) (d : Int),
      storedCount (vote [(5, "a", 30), (5, "b", 45), (6, "a", 70)] [(5, 20), (6, 60), (5, 20)]) c d =
        if pairCount [(5, "a", 30), (5, "b", 45), (6, "a", 70)] [(5, 20), (6, 60), (5, 20)] c d = 0
        then none
        else some (pairCount [(5, "a", 30), (5, "b", 45), (6, "a", 70)]
          [(5, 20), (6, 60), (5, 20)] c d)) ∧
    (∀ (hits : Hits) (p : Int × Int),
      (∀ e ∈ [((5 : Int), "a", (30 : Int)), (5, "b", 45), (6, "a", 70)], e.1 ≠ p.1) →
      voteSample [(5, "a", 30), (5, "b", 45), (6, "a", 70)] hits p = hits) :=
  vote_counts_pairs [(5, "a", 30), (5, "b", 45), (6, "a", 70)] [(5, 20), (6, 60), (5, 20)]
    (by decide)

/-- C6 (counterexample): one sample at `x = 0` and two entries of image `a` with
position markers `2 ^ 24 + 1` and `2 ^ 24`.  Each offset occurs in one pair, but
both votes land on the `float` key `2 ^ 24`, whose count is 2, and the key
`2 ^ 24 + 1` is absent. -/
theorem vote_merges_large_offsets :
    pairCount [(5, "a", 16777217), (5, "a", 16777216)] [(5, 0)] "a" 16777216 = 1 ∧
    pairCount [(5, "a", 16777217), (5, "a", 16777216)] [(5, 0)] "a" 16777217 = 1 ∧
    storedCount (vote [(5, "a", 16777217), (5, "a", 16777216)] [(5, 0)]) "a" 16777216 = some 2 ∧
    storedCount (vote [(5, "a", 16777217), (5, "a", 16777216)] [(5, 0)]) "a" 16777217 = none ∧
    storedCount (vote [(5, "a", 16777217), (5, "a", 16777216)] [(5, 0)]) "a"
      (floatOfInt 16777217) = some 2 := by
  decide

/-! ### Independence of the order of the index -/

lemma votesOf_perm (data1 data2 : List Entry) (imageHashes : List (Int × Int))
    (hperm : data1.Perm data2) :
    (votesOf data1 imageHashes).Perm (votesOf data2 imageHashes) := by
  unfold votesOf
  apply List.Perm.flatMap_left
  intro p _
  apply List.Perm.map
  unfold equal_range
  exact hperm.filter _

lemma foldl_histIncr_perm (l1 l2 : List Int) (hperm : l1.Perm l2) (h0 : Hist) :
    l1.foldl (fun h k => histIncr k h) h0 = l2.foldl (fun h k => histIncr k h) h0 :=
  List.Perm.foldl_eq' hperm (fun x _ y _ z => histIncr_comm y x z) h0

/-- Permuting the index leaves every candidate's stored histogram unchanged. -/
lemma lookup_vote_perm (data1 data2 : List Entry) (imageHashes : List (Int × Int))
    (hperm : data1.Perm data2) (c : String) :
    (vote data1 imageHashes).lookup c = (vote data2 imageHashes).lookup c := by
  rw [vote_eq, vote_eq, lookup_foldl_hitsIncr, lookup_foldl_hitsIncr]
  have hp := (votesOf_perm data1 data2 imageHashes hperm).filter (fun v => v.1 = c)
  by_cases hnil : (votesOf data1 imageHashes).filter (fun v => v.1 = c) = []
  · have hnil2 : (votesOf data2 imageHashes).filter (fun v => v.1 = c) = [] := by
      rw [hnil] at hp
      exact (List.Perm.nil_eq hp).symm
    rw [if_pos hnil, if_pos hnil2]
  · have hnil2 : ¬ (votesOf data2 imageHashes).filter (fun v => v.1 = c) = [] := by
      intro h2
      rw [h2] at hp
      exact hnil (List.Perm.eq_nil hp)
    rw [if_neg hnil, if_neg hnil2, foldl_histIncr_perm _ _ (hp.map Prod.snd)]

lemma keys_hitsIncr (c : String) (k : Int) : ∀ hits : Hits,
    (hitsIncr c k hits).map Prod.fst =
      if c ∈ hits.map Prod.fst then hits.map Prod.fst else hits.map Prod.fst ++ [c] := by
  intro hits
  induction hits with
  | nil => simp [hitsIncr]
  | cons a t ih =>
    obtain ⟨c1, h1⟩ := a
    unfold hitsIncr
    by_cases hc1 : c1 = c
    · subst hc1
      rw [if_pos rfl]
      simp
    · rw [if_neg hc1, List.map_cons, ih]
      have hne : ¬ c = c1 := fun e => hc1 e.symm
      by_cases hmem : c ∈ t.map Prod.fst
      · rw [if_pos hmem, if_pos (by simp only [List.map_cons, List.mem_cons]; right; exact hmem)]
        rfl
      · rw [if_neg hmem, if_neg (by
          simp only [List.map_cons, List.mem_cons, not_or]
          exact ⟨hne, hmem⟩)]
        rfl

lemma nodup_keys_foldl : ∀ (votes : List (String × Int)) (hits : Hits),
    (hits.map Prod.fst).Nodup →
    ((votes.foldl (fun hits v => hitsIncr v.1 v.2 hits) hits).map Prod.fst).Nodup := by
  intro votes
  induction votes with
  | nil => intro hits h; exact h
  | cons v t ih =>
    intro hits h
    rw [List.foldl_cons]
    apply ih
    rw [keys_hitsIncr]
    by_cases hmem : v.1 ∈ hits.map Prod.fst
    · rw [if_pos hmem]; exact h
    · rw [if_neg hmem]
      rw [List.nodup_append]
      refine ⟨h, List.nodup_singleton _, ?_⟩
      intro a ha hb
      rw [List.mem_singleton] at hb
      subst hb
      exact hmem ha

/-- The candidates of `hits` after voting are pairwise distinct. -/
lemma nodup_keys_vote (fingerprints : List Entry) (imageHashes : List (Int × Int)) :
    ((vote fingerprints imageHashes).map Prod.fst).Nodup := by
  rw [vote_eq]
  exact nodup_keys_foldl _ [] (by simp)

lemma mem_of_lookup {β : Type} (c : String) (v : β) : ∀ l : List (String × β),
    l.lookup c = some v → (c, v) ∈ l := by
  intro l
  induction l with
  | nil => intro h; simp [List.lookup] at h
  | cons a t ih =>
    obtain ⟨c1, v1⟩ := a
    intro h
    by_cases hc : c = c1
    · subst hc
      rw [lookup_head] at h
      cases h
      exact List.mem_cons_self _ _
    · rw [lookup_tail _ _ _ _ hc] at h
      exact List.mem_cons_of_mem _ (ih h)

lemma lookup_of_mem {β : Type} (c : String) (v : β) : ∀ l : List (String × β),
    (l.map Prod.fst).Nodup → (c, v) ∈ l → l.lookup c = some v := by
  intro l
  induction l with
  | nil => intro _ h; simp at h
  | cons a t ih =>
    obtain ⟨c1, v1⟩ := a
    intro hnd h
    rw [List.map_cons, List.nodup_cons] at hnd
    rcases List.mem_cons.mp h with heq | hmem
    · cases heq
      exact lookup_head _ _ _
    · have hc : c ≠ c1 := by
        intro e
        subst e
        apply hnd.1
        exact List.mem_map.mpr ⟨(c, v), hmem, rfl⟩
      rw [lookup_tail _ _ _ _ hc]
      exact ih hnd.2 hmem

/-- Permuting the index leaves the set of `(candidate, histogram)` pairs unchanged. -/
lemma mem_vote_perm (data1 data2 : List Entry) (imageHashes : List (Int × Int))
    (hperm : data1.Perm data2) (kv : String × Hist) (h : kv ∈ vote data1 imageHashes) :
    kv ∈ vote data2 imageHashes := by
  obtain ⟨c, v⟩ := kv
  apply mem_of_lookup
  rw [← lookup_vote_perm data1 data2 imageHashes hperm]
  exact lookup_of_mem c v _ (nodup_keys_vote data1 imageHashes) h

/-- The outcome of the outer loop of the scorer: nothing scores, or the first
candidate with the maximum score is taken. -/
lemma selectBest_cases (hits : Hits) :
    ((∀ kv ∈ hits, imgMax kv.2 = 0) ∧ selectBest hits = (0, "")) ∨
    (∃ c ∈ hits, selectBest hits = (imgMax c.2, c.1) ∧ 0 < imgMax c.2 ∧
      ∀ kv ∈ hits, imgMax kv.2 ≤ imgMax c.2) := by
  unfold selectBest
  rcases selectLoop_spec hits (0, "") with ⟨hall, hres⟩ | ⟨k, d, hk, hres, hlt, hall, _⟩
  · left
    refine ⟨?_, hres⟩
    intro kv hkv
    have := hall kv hkv
    simp only at this
    omega
  · right
    exact ⟨d, List.getElem?_mem hk, hres, hlt, hall⟩

lemma le_selectBest (hits : Hits) : ∀ kv ∈ hits, imgMax kv.2 ≤ (selectBest hits).1 := by
  intro kv hkv
  rcases selectBest_cases hits with ⟨hall, _⟩ | ⟨c, _, hres, _, hall⟩
  · rw [hall kv hkv]; exact Nat.zero_le _
  · rw [hres]; exact hall kv hkv

lemma selectBest_fst_le (hits1 hits2 : Hits) (hsub : ∀ kv ∈ hits1, kv ∈ hits2) :
    (selectBest hits1).1 ≤ (selectBest hits2).1 := by
  rcases selectBest_cases hits1 with ⟨_, hres⟩ | ⟨c, hc, hres, _, _⟩
  · rw [hres]; exact Nat.zero_le _
  · rw [hres]; exact le_selectBest hits2 c (hsub c hc)

lemma selectBest_eq_of_noTie (hits1 hits2 : Hits) (h12 : ∀ kv ∈ hits1, kv ∈ hits2)
    (h21 : ∀ kv ∈ hits2, kv ∈ hits1) (hno : noTie hits1) :
    selectBest hits1 = selectBest hits2 := by
  have hle1 := selectBest_fst_le hits1 hits2 h12
  have hle2 := selectBest_fst_le hits2 hits1 h21
  rcases selectBest_cases hits1 with ⟨_, hres1⟩ | ⟨c1, hc1, hres1, hpos1, _⟩ <;>
  rcases selectBest_cases hits2 with ⟨_, hres2⟩ | ⟨c2, hc2, hres2, hpos2, _⟩
  · rw [hres1, hres2]
  · rw [hres1, hres2] at hle2
    simp only at hle2
    omega
  · rw [hres1, hres2] at hle1
    simp only at hle1
    omega
  · rw [hres1, hres2] at hle1 hle2
    simp only at hle1 hle2
    have heq : c1 = c2 := hno c1 hc1 c2 (h21 c2 hc2) hpos1 (by omega)
    rw [hres1, hres2, heq]

lemma isEmpty_eq_of_mem (hits1 hits2 : Hits) (h12 : ∀ kv ∈ hits1, kv ∈ hits2)
    (h21 : ∀ kv ∈ hits2, kv ∈ hits1) : hits1.isEmpty = hits2.isEmpty := by
  cases hits1 with
  | nil =>
    cases hits2 with
    | nil => rfl
    | cons b t => exact absurd (h21 b (List.mem_cons_self _ _)) (List.not_mem_nil _)
  | cons a t =>
    cases hits2 with
    | nil => exact absurd (h12 a (List.mem_cons_self _ _)) (List.not_mem_nil _)
    | cons b t2 => rfl

/-- C10 (as amended): for two indexes whose fingerprint entries are permutations of
each other and whose hash maps map the same hashes to the same images, and any
fixed list of query samples, every candidate has the same offset histogram and
the same windowed score under both, the maximum score is the same, `hits` is
empty under both or under neither, and two runs that draw these query samples
give the same report up to the name of the best match; when no two candidates
tie on a positive score the scorer reports the same pair and the two runs give
the same result. -/
theorem match_order_independent (index1 index2 : Index)
    (hdata : index1.data.Perm index2.data)
    (hmap : ∀ h : Nat, index1.pHashes.lookup h = index2.pHashes.lookup h)
    (imageHashes : List (Int × Int)) :
    (∀ c, (vote index1.data imageHashes).lookup c = (vote index2.data imageHashes).lookup c) ∧
    (∀ c, histOf (vote index1.data imageHashes) c = histOf (vote index2.data imageHashes) c) ∧
    (∀ c, imgMax (histOf (vote index1.data imageHashes) c)
        = imgMax (histOf (vote index2.data imageHashes) c)) ∧
    (selectBest (vote index1.data imageHashes)).1 = (selectBest (vote index2.data imageHashes)).1 ∧
    (vote index1.data imageHashes).isEmpty = (vote index2.data imageHashes).isEmpty ∧
    (∀ (hash : Nat) (image1 image2 : CImg) (sum1 sum2 : Nat → Nat → Nat)
      (random1 random2 : Nat → Nat) (SAMPLES1 SAMPLES2 R1 R2 : Int),
      sampleLoop sum1 random1 image1 R1 SAMPLES1.toNat 0 = some imageHashes →
      sampleLoop sum2 random2 image2 R2 SAMPLES2.toNat 0 = some imageHashes →
      (matchQuery index1 hash image1 sum1 random1 SAMPLES1 R1).withoutName
        = (matchQuery index2 hash image2 sum2 random2 SAMPLES2 R2).withoutName) ∧
    (noTie (vote index1.data imageHashes) →
      selectBest (vote index1.data imageHashes) = selectBest (vote index2.data imageHashes) ∧
      ∀ (hash : Nat) (image1 image2 : CImg) (sum1 sum2 : Nat → Nat → Nat)
        (random1 random2 : Nat → Nat) (SAMPLES1 SAMPLES2 R1 R2 : Int),
        sampleLoop sum1 random1 image1 R1 SAMPLES1.toNat 0 = some imageHashes →
        sampleLoop sum2 random2 image2 R2 SAMPLES2.toNat 0 = some imageHashes →
        matchQuery index1 hash image1 sum1 random1 SAMPLES1 R1
          = matchQuery index2 hash image2 sum2 random2 SAMPLES2 R2) := by
  have hlook := fun c => lookup_vote_perm index1.data index2.data imageHashes hdata c
  have h12 := mem_vote_perm index1.data index2.data imageHashes hdata
  have h21 := mem_vote_perm index2.data index1.data imageHashes hdata.symm
  have hmax : (selectBest (vote index1.data imageHashes)).1
      = (selectBest (vote index2.data imageHashes)).1 :=
    le_antisymm (selectBest_fst_le _ _ h12) (selectBest_fst_le _ _ h21)
  have hemp := isEmpty_eq_of_mem _ _ h12 h21
  refine ⟨hlook, ?_, ?_, hmax, hemp, ?_, ?_⟩
  · intro c
    unfold histOf
    rw [hlook]
  · intro c
    unfold histOf
    rw [hlook]
  · intro hash image1 image2 sum1 sum2 random1 random2 SAMPLES1 SAMPLES2 R1 R2 hs1 hs2
    unfold matchQuery
    rw [hmap hash]
    cases index2.pHashes.lookup hash with
    | some name => rfl
    | none =>
      simp only [hs1, hs2]
      rw [hemp]
      cases (vote index2.data imageHashes).isEmpty with
      | true => rfl
      | false =>
        simp only [Outcome.withoutName, Bool.false_eq_true, if_false]
        rw [hmax]
  · intro hno
    have hsel := selectBest_eq_of_noTie _ _ h12 h21 hno
    refine ⟨hsel, ?_⟩
    intro hash image1 image2 sum1 sum2 random1 random2 SAMPLES1 SAMPLES2 R1 R2 hs1 hs2
    unfold matchQuery
    rw [hmap hash]
    cases index2.pHashes.lookup hash with
    | some name => rfl
    | none =>
      simp only [hs1, hs2]
      rw [hemp, hsel]

/-- Witness for C10: the index `winAB` and its reordering `winBA` with the ten
query samples; image `a` scores 20 and image `b` scores 10, so there is no tie. -/
theorem match_order_independent_witness :
    noTie (vote winAB.data tenSamples) ∧
    selectBest (vote winAB.data tenSamples) = (20, "a") ∧
    (∀ c, (vote winAB.data tenSamples).lookup c = (vote winBA.data tenSamples).lookup c) ∧
    (∀ c, histOf (vote winAB.data tenSamples) c = histOf (vote winBA.data tenSamples) c) ∧
    (∀ c, imgMax (histOf (vote winAB.data tenSamples) c)
        = imgMax (histOf (vote winBA.data tenSamples) c)) ∧
    (selectBest (vote winAB.data tenSamples)).1 = (selectBest (vote winBA.data tenSamples)).1 ∧
    (vote winAB.data tenSamples).isEmpty = (vote winBA.data tenSamples).isEmpty ∧
    (∀ (hash : Nat) (image1 image2 : CImg) (sum1 sum2 : Nat → Nat → Nat)
      (random1 random2 : Nat → Nat) (SAMPLES1 SAMPLES2 R1 R2 : Int),
      sampleLoop sum1 random1 image1 R1 SAMPLES1.toNat 0 = some tenSamples →
      sampleLoop sum2 random2 image2 R2 SAMPLES2.toNat 0 = some tenSamples →
      (matchQuery winAB hash image1 sum1 random1 SAMPLES1 R1).withoutName
        = (matchQuery winBA hash image2 sum2 random2 SAMPLES2 R2).withoutName) ∧
    selectBest (vote winAB.data tenSamples) = selectBest (vote winBA.data tenSamples) ∧
    (∀ (hash : Nat) (image1 image2 : CImg) (sum1 sum2 : Nat → Nat → Nat)
      (random1 random2 : Nat → Nat) (SAMPLES1 SAMPLES2 R1 R2 : Int),
      sampleLoop sum1 random1 image1 R1 SAMPLES1.toNat 0 = some tenSamples →
      sampleLoop sum2 random2 image2 R2 SAMPLES2.toNat 0 = some tenSamples →
      matchQuery winAB hash image1 sum1 random1 SAMPLES1 R1
        = matchQuery winBA hash image2 sum2 random2 SAMPLES2 R2) :=
  have hno : noTie (vote winAB.data tenSamples) := by
    unfold noTie
    decide
  have h := match_order_independent winAB winBA (List.Perm.swap _ _ _) (fun _ => rfl) tenSamples
  ⟨hno, by decide, h.1, h.2.1, h.2.2.1, h.2.2.2.1, h.2.2.2.2.1, h.2.2.2.2.2.1,
    (h.2.2.2.2.2.2 hno).1, (h.2.2.2.2.2.2 hno).2⟩

/-- C10 (counterexample): the indexes `tieAB` and `tieBA` hold the same entries and
the same hash map, and the query `flat12` gives the same ten samples in both
runs; both images score 10, and the run against `tieAB` reports `a` while the
run against `tieBA` reports `b`. -/
theorem match_tie_depends_on_order :
    tieAB.data.Perm tieBA.data ∧ tieAB.pHashes = tieBA.pHashes ∧
    sampleLoop (fun _ _ => 0) (fun k => k / 2) flat12 2 10 0 = some tenSamples ∧
    selectBest (vote tieAB.data tenSamples) = (10, "a") ∧
    selectBest (vote tieBA.data tenSamples) = (10, "b") ∧
    matchQuery tieAB 7 flat12 (fun _ _ => 0) (fun k => k / 2) 10 2 = Outcome.bestMatch "a" 10 ∧
    matchQuery tieBA 7 flat12 (fun _ _ => 0) (fun k => k / 2) 10 2 = Outcome.bestMatch "b" 10 :=
  ⟨List.Perm.swap _ _ _, rfl, by decide, by decide, by decide, by decide, by decide⟩

/-! ### The empty result -/

lemma vote_eq_nil_iff (fingerprints : List Entry) (imageHashes : List (Int × Int)) :
    vote fingerprints imageHashes = [] ↔ votesOf fingerprints imageHashes = [] := by
  constructor
  · intro hnil
    cases hv : votesOf fingerprints imageHashes with
    | nil => rfl
    | cons v t =>
      have hl := lookup_foldl_hitsIncr v.1 (votesOf fingerprints imageHashes) []
      rw [← vote_eq, hnil, hv] at hl
      have hf : (v :: t).filter (fun w => w.1 = v.1) ≠ [] := by
        simp [List.filter_cons]
      rw [if_neg hf] at hl
      simp [List.lookup] at hl
  · intro hnil
    rw [vote_eq, hnil]
    rfl

lemma votesOf_eq_nil_iff (fingerprints : List Entry) (imageHashes : List (Int × Int)) :
    votesOf fingerprints imageHashes = [] ↔
      ∀ s ∈ imageHashes, ∀ e ∈ fingerprints, e.1 ≠ s.1 := by
  unfold votesOf equal_range
  simp only [List.flatMap_eq_nil_iff, List.map_eq_nil_iff, List.filter_eq_nil_iff,
    decide_eq_true_eq]

/-- When the query hash is not indexed and the sampling loop completes, the result
is `noMatches` exactly when no sample has the fingerprint of an index entry; in
particular against an index without entries. -/
lemma matchQuery_noMatches_iff (index : Index) (hash : Nat) (image : CImg)
    (sum0 : Nat → Nat → Nat) (random : Nat → Nat) (SAMPLES R : Int)
    (sampled : List (Int × Int)) (hkey : index.pHashes.lookup hash = none)
    (hs : sampleLoop sum0 random image R SAMPLES.toNat 0 = some sampled) :
    matchQuery index hash image sum0 random SAMPLES R = Outcome.noMatches ↔
      ∀ s ∈ sampled, ∀ e ∈ index.data, e.1 ≠ s.1 := by
  unfold matchQuery
  rw [hkey, ← votesOf_eq_nil_iff, ← vote_eq_nil_iff]
  simp only [hs]
  cases hv : vote index.data sampled with
  | nil => simp
  | cons a t => simp

/-! ### Histograms with fewer than 10 buckets -/

/-- A histogram with fewer than 10 buckets has no window, so its score is 0. -/
lemma imgMax_of_short (h : Hist) (hlen : h.length < 10) : imgMax h = 0 := by
  rw [imgMax_eq_bestWindow]
  unfold bestWindow windowSums
  have e : h.length - 9 = 0 := by omega
  rw [e]
  rfl

/-- C17: a histogram with fewer than 10 populated offsets has windowed score 0
whatever its vote counts are; so when every candidate of `hits` has fewer than
10 populated offsets the scorer selects no candidate, its state stays
`(0, "")`, and a run that reaches the scorer reports the empty name with
score 0. -/
theorem short_histograms_select_nothing (hits : Hits)
    (hshort : ∀ kv ∈ hits, kv.2.length < 10) :
    (∀ h : Hist, h.length < 10 → imgMax h = 0) ∧
    (∀ kv ∈ hits, imgMax kv.2 = 0) ∧
    selectBest hits = (0, "") ∧
    (∀ (index : Index) (hash : Nat) (image : CImg) (sum0 : Nat → Nat → Nat)
      (random : Nat → Nat) (SAMPLES R : Int) (sampled : List (Int × Int)),
      index.pHashes.lookup hash = none →
      sampleLoop sum0 random image R SAMPLES.toNat 0 = some sampled →
      vote index.data sampled = hits → hits ≠ [] →
      matchQuery index hash image sum0 random SAMPLES R = Outcome.bestMatch "" 0) := by
  have hzero : ∀ kv ∈ hits, imgMax kv.2 = 0 :=
    fun kv hkv => imgMax_of_short kv.2 (hshort kv hkv)
  have hsel : selectBest hits = (0, "") := by
    rcases selectBest_cases hits with ⟨_, hres⟩ | ⟨c, hc, _, hpos, _⟩
    · exact hres
    · have := hzero c hc
      omega
  refine ⟨imgMax_of_short, hzero, hsel, ?_⟩
  intro index hash image sum0 random SAMPLES R sampled hkey hs hv hne
  unfold matchQuery
  rw [hkey]
  simp only [hs, hv, hsel]
  cases hits with
  | nil => exact absurd rfl hne
  | cons a t => rfl

/-- Witness for C17: one candidate with three populated offsets. -/
theorem short_histograms_select_nothing_witness :
    (∀ h : Hist, h.length < 10 → imgMax h = 0) ∧
    (∀ kv ∈ [("a", [((-4 : Int), 7), (0, 9), (3, 2)])], imgMax kv.2 = 0) ∧
    selectBest [("a", [(-4, 7), (0, 9), (3, 2)])] = (0, "") ∧
    (∀ (index : Index) (hash : Nat) (image : CImg) (sum0 : Nat → Nat → Nat)
      (random : Nat → Nat) (SAMPLES R : Int) (sampled : List (Int × Int)),
      index.pHashes.lookup hash = none →
      sampleLoop sum0 random image R SAMPLES.toNat 0 = some sampled →
      vote index.data sampled = [("a", [(-4, 7), (0, 9), (3, 2)])] →
      [("a", [((-4 : Int), 7), (0, 9), (3, 2)])] ≠ [] →
      matchQuery index hash image sum0 random SAMPLES R = Outcome.bestMatch "" 0) :=
  short_histograms_select_nothing [("a", [(-4, 7), (0, 9), (3, 2)])] (by decide)

/-! ### The builder: entries and the hash map -/

lemma cols_pos (r : Rect) : 1 ≤ r.cols := by
  unfold Rect.cols
  omega

lemma rows_pos (r : Rect) : 1 ≤ r.rows := by
  unfold Rect.rows
  omega

/-- A crop is never empty, so `computeFingerprint` does not divide by zero on it. -/
lemma computeFingerprint_crop_isSome (sum0 : Nat → Nat) (image : CImg) (r : Rect) :
    ∃ v, computeFingerprint sum0 (get_crop image r) = some v := by
  unfold computeFingerprint
  have h : ¬ (get_crop image r).width * (get_crop image r).height = 0 := by
    have h1 := cols_pos r
    have h2 := rows_pos r
    show ¬ r.cols * r.rows = 0
    exact Nat.mul_ne_zero (by omega) (by omega)
  rw [if_neg h]
  exact ⟨_, rfl⟩

/-- Every planned region yields one entry, with the image name and its marker. -/
lemma fingerprintRegions_spec (sum0 : Nat → Nat → Nat) (imageName : String) (image : CImg) :
    ∀ (plan : List (Rect × Int)) (i : Nat),
      ∃ entries, fingerprintRegions sum0 imageName image i plan = some entries ∧
        entries.map Prod.snd = plan.map (fun c => (imageName, c.2)) := by
  intro plan
  induction plan with
  | nil => intro i; exact ⟨[], rfl, rfl⟩
  | cons c t ih =>
    intro i
    obtain ⟨r, marker⟩ := c
    obtain ⟨v, hv⟩ := computeFingerprint_crop_isSome (sum0 i) image r
    obtain ⟨es, hes, hmap⟩ := ih (i + 1)
    refine ⟨(v, imageName, marker) :: es, ?_, ?_⟩
    · unfold fingerprintRegions
      rw [hv, hes]
    · rw [List.map_cons, List.map_cons, hmap]

/-- The builder inserts one entry per planned region of the image. -/
lemma indexImage_spec (sum0 : Nat → Nat → Nat) (imageName : String) (image : CImg) (R : Int) :
    ∃ entries, indexImage sum0 imageName image R = some entries ∧
      entries.map Prod.snd =
        (regionPlan image.width image.height R).map (fun c => (imageName, c.2)) :=
  fingerprintRegions_spec sum0 imageName image _ 0

lemma lookup_mapAssign (k : Nat) (v : String) (k2 : Nat) : ∀ m : List (Nat × String),
    (mapAssign k v m).lookup k2 = if k2 = k then some v else m.lookup k2 := by
  intro m
  induction m with
  | nil =>
    unfold mapAssign
    by_cases h : k2 = k
    · subst h
      rw [if_pos rfl, lookup_head]
    · rw [if_neg h, lookup_tail _ _ _ _ h]
  | cons a t ih =>
    obtain ⟨k1, v1⟩ := a
    unfold mapAssign
    by_cases hk1 : k1 = k
    · subst hk1
      rw [if_pos rfl]
      by_cases h : k2 = k1
      · subst h
        rw [if_pos rfl, lookup_head]
      · rw [if_neg h, lookup_tail _ _ _ _ h, lookup_tail _ _ _ _ h]
    · rw [if_neg hk1]
      by_cases h : k2 = k
      · subst h
        have hne : k2 ≠ k1 := fun e => hk1 e.symm
        rw [if_pos rfl, lookup_tail _ _ _ _ hne, ih, if_pos rfl]
      · rw [if_neg h]
        by_cases h2 : k2 = k1
        · subst h2
          rw [lookup_head, lookup_head]
        · rw [lookup_tail _ _ _ _ h2, lookup_tail _ _ _ _ h2, ih, if_neg h]

/-- The scan always completes, and its hash map is the fold of `pHashes[h] = name`
over the processed images in scan order. -/
lemma buildLoop_pHashes (sum0 : Nat → Nat → Nat → Nat) (R : Int) :
    ∀ (entries : List DirEntry) (n : Nat) (index : Index),
      ∃ built, buildLoop sum0 R n entries index = some built ∧
        built.pHashes =
          (processed entries).foldl (fun m e => mapAssign e.pHash e.path m) index.pHashes := by
  intro entries
  induction entries with
  | nil => intro n index; exact ⟨index, rfl, rfl⟩
  | cons e t ih =>
    intro n index
    unfold buildLoop processed
    cases hreg : e.isRegularFile with
    | false =>
      obtain ⟨built, hb, hp⟩ := ih (n + 1) index
      refine ⟨built, by simpa using hb, ?_⟩
      rw [hp]
      simp [processed, List.filter_cons, hreg]
    | true =>
      cases hdec : e.decoded with
      | none =>
        obtain ⟨built, hb, hp⟩ := ih (n + 1) index
        refine ⟨built, by simpa using hb, ?_⟩
        rw [hp]
        simp [processed, List.filter_cons, hreg, hdec]
      | some image =>
        obtain ⟨es, hes, _⟩ := indexImage_spec (sum0 n) e.path image R
        obtain ⟨built, hb, hp⟩ := ih (n + 1)
          { data := index.data ++ es, pHashes := mapAssign e.pHash e.path index.pHashes }
        refine ⟨built, by simpa [hes] using hb, ?_⟩
        rw [hp]
        simp [processed, List.filter_cons, hreg, hdec]

/-- Reading a key after a sequence of assignments gives the value of the last
assignment to that key. -/
lemma lookup_foldl_mapAssign (h : Nat) : ∀ (l : List DirEntry) (m : List (Nat × String)),
    (l.foldl (fun m e => mapAssign e.pHash e.path m) m).lookup h =
      match l.reverse.find? (fun e => e.pHash = h) with
      | some e => some e.path
      | none => m.lookup h := by
  intro l
  induction l with
  | nil => intro m; rfl
  | cons e t ih =>
    intro m
    rw [List.foldl_cons, ih, List.reverse_cons, List.find?_append]
    cases hf : t.reverse.find? (fun e => e.pHash = h) with
    | some e1 => rfl
    | none =>
      rw [lookup_mapAssign, List.find?_singleton]
      by_cases he : e.pHash = h
      · simp [he]
      · have he2 : ¬ h = e.pHash := fun x => he x.symm
        simp [he, he2]

/-- C14: for a region size of at least 1 the scan of a directory completes (the
grid loops of every image end within their fuel), and in the index it builds a
hash `h` is a key of the whole-image hash map exactly when some processed image
has hash `h`, the image mapped to `h` being the last processed image in scan
order whose hash is `h`. -/
theorem pHashes_last_write_wins (sum0 : Nat → Nat → Nat → Nat) (R : Int)
    (entries : List DirEntry) (hR : 1 ≤ R) :
    ∃ built, buildIndex sum0 R entries = some built ∧
      (∀ h : Nat, built.pHashes.lookup h =
        ((processed entries).reverse.find? (fun e => e.pHash = h)).map DirEntry.path) ∧
      (∀ h : Nat, (∃ name, built.pHashes.lookup h = some name) ↔
        ∃ e ∈ processed entries, e.pHash = h) ∧
      (∀ (W : Int) (extra : Nat), stepLoop R W (W.toNat + extra) R = steps R W) := by
  obtain ⟨built, hb, hp⟩ := buildLoop_pHashes sum0 R entries 0 { data := [], pHashes := [] }
  have hlook : ∀ h : Nat, built.pHashes.lookup h =
      ((processed entries).reverse.find? (fun e => e.pHash = h)).map DirEntry.path := by
    intro h
    rw [hp, lookup_foldl_mapAssign]
    cases (processed entries).reverse.find? (fun e => e.pHash = h) with
    | some e => rfl
    | none => rfl
  refine ⟨built, hb, hlook, ?_, fun W => stepLoop_fuel_enough R W hR⟩
  intro h
  rw [hlook]
  constructor
  · rintro ⟨name, hname⟩
    cases hf : (processed entries).reverse.find? (fun e => e.pHash = h) with
    | none => rw [hf] at hname; simp at hname
    | some e =>
      have hmem := List.mem_of_find?_eq_some hf
      have hprop := List.find?_some hf
      exact ⟨e, List.mem_reverse.mp hmem, by simpa using hprop⟩
  · rintro ⟨e, he, heh⟩
    cases hf : (processed entries).reverse.find? (fun e => e.pHash = h) with
    | some e1 => exact ⟨e1.path, rfl⟩
    | none =>
      rw [List.find?_eq_none] at hf
      have := hf e (List.mem_reverse.mpr he)
      simp [heh] at this

/-- Witness for C14: the directory `corpus4`, whose two images share hash 42. -/
theorem pHashes_last_write_wins_witness :
    ∃ built, buildIndex (fun _ _ _ => 0) 50 corpus4 = some built ∧
      (∀ h : Nat, built.pHashes.lookup h =
        ((processed corpus4).reverse.find? (fun e => e.pHash = h)).map DirEntry.path) ∧
      (∀ h : Nat, (∃ name, built.pHashes.lookup h = some name) ↔
        ∃ e ∈ processed corpus4, e.pHash = h) ∧
      (∀ (W : Int) (extra : Nat), stepLoop 50 W (W.toNat + extra) 50 = steps 50 W) :=
  pHashes_last_write_wins (fun _ _ _ => 0) 50 corpus4 (by decide)

/-! ### The builder: how many entries, with which markers -/

lemma le_of_mem_stepLoop (R W : Int) (hR : 1 ≤ R) : ∀ (fuel : Nat) (x0 x : Int),
    x ∈ stepLoop R W fuel x0 → x0 ≤ x := by
  intro fuel
  induction fuel with
  | zero => intro x0 x h; simp [stepLoop] at h
  | succ n ih =>
    intro x0 x h
    unfold stepLoop at h
    by_cases hx : x0 < W
    · rw [if_pos hx] at h
      rcases List.mem_cons.mp h with rfl | h
      · exact le_refl _
      · have := ih (x0 + R) x h
        omega
    · rw [if_neg hx] at h
      simp at h

lemma nodup_stepLoop (R W : Int) (hR : 1 ≤ R) : ∀ (fuel : Nat) (x0 : Int),
    (stepLoop R W fuel x0).Nodup := by
  intro fuel
  induction fuel with
  | zero => intro x0; simp [stepLoop]
  | succ n ih =>
    intro x0
    unfold stepLoop
    by_cases hx : x0 < W
    · rw [if_pos hx, List.nodup_cons]
      refine ⟨?_, ih _⟩
      intro hmem
      have := le_of_mem_stepLoop R W hR n (x0 + R) x0 hmem
      omega
    · rw [if_neg hx]
      exact List.nodup_nil

/-- The loop `for (x = R; x < W; x += R)` runs its body once for each positive
multiple of `R` below `W`. -/
lemma length_steps (R W : Int) (hR : 1 ≤ R) : (steps R W).length = nMultiples R W := by
  unfold nMultiples steps
  rw [← List.toFinset_card_of_nodup (nodup_stepLoop R W hR W.toNat R)]
  congr 1
  ext m
  rw [List.mem_toFinset, Finset.mem_filter, Finset.mem_Ico]
  have hm := mem_steps R W m hR
  unfold steps at hm
  rw [hm]
  constructor
  · rintro ⟨hlt, k, rfl⟩
    refine ⟨⟨?_, hlt⟩, Dvd.intro_left _ rfl⟩
    have : (0 : Int) ≤ k * R := by positivity
    nlinarith
  · rintro ⟨⟨h1, hlt⟩, c, rfl⟩
    refine ⟨hlt, (c - 1).toNat, ?_⟩
    have hc : 1 ≤ c := by
      by_contra hc
      have : R * c ≤ 0 := by
        have : c ≤ 0 := by omega
        nlinarith
      omega
    rw [Int.toNat_of_nonneg (by omega)]
    ring

/-- The planned regions are the interior cells, the bottom strip, the right strip
and the corner, up to the order in which the builder visits them. -/
lemma regionPlan_perm (W H R : Int) :
    (regionPlan W H R).Perm
      (interiorCells W H R ++ bottomStrip W H R ++ rightStrip W H R ++ [cornerRegion W H R]) := by
  unfold regionPlan interiorCells bottomStrip rightStrip cornerRegion
  apply List.Perm.append_right
  apply List.Perm.append_right
  generalize steps R W = xs
  induction xs with
  | nil => exact List.Perm.refl _
  | cons x t ih =>
    simp only [List.flatMap_cons, List.map_cons, List.append_assoc]
    apply List.Perm.append_left
    refine List.Perm.trans (List.Perm.cons _ ih) ?_
    exact List.perm_middle.symm

lemma length_interiorCells (W H R : Int) :
    (interiorCells W H R).length = (steps R W).length * (steps R H).length := by
  unfold interiorCells
  generalize steps R W = xs
  induction xs with
  | nil => simp
  | cons x t ih =>
    rw [List.flatMap_cons, List.length_append, ih, List.length_map, List.length_cons]
    ring

/-- Every region of the four groups has its marker at the right edge `x1` of its
rectangle, `R` to the right of the left edge. -/
lemma marker_of_group (W H R : Int) :
    ∀ c ∈ interiorCells W H R ++ bottomStrip W H R ++ rightStrip W H R ++ [cornerRegion W H R],
      c.2 = c.1.x1 ∧ c.1.x1 - c.1.x0 = R := by
  intro c hc
  simp only [List.mem_append, interiorCells, bottomStrip, rightStrip, cornerRegion,
    List.mem_flatMap, List.mem_map, List.mem_singleton] at hc
  rcases hc with ((⟨x, _, y, _, rfl⟩ | ⟨x, _, rfl⟩) | ⟨y, _, rfl⟩) | rfl <;>
    exact ⟨rfl, by simp⟩

/-- The numbers of the 100 by 100 image with region size 50: one positive multiple
of 50 below 100, so one interior cell and three edge regions. -/
lemma counts_image100 :
    nMultiples 50 100 = 1 ∧ (interiorCells 100 100 50).length = 1 ∧
    (bottomStrip 100 100 50 ++ rightStrip 100 100 50 ++ [cornerRegion 100 100 50]).length = 3 ∧
    (regionPlan 100 100 50).length = 4 := by
  refine ⟨?_, by decide, by decide, by decide⟩
  rw [← length_steps 50 100 (by decide)]
  decide

/-- C13: for a region size `R` of at least 1 and an image of width `W` and height
`H`, with `nx` and `ny` the numbers of positive multiples of `R` strictly below
`W` and `H`, the builder inserts one entry per planned region, and these are
`nx * ny` interior cells and `nx` bottom-strip regions with position marker `x`,
`ny` right-strip regions and one corner region with position marker `W`,
`(nx + 1) * (ny + 1)` entries in all; every marker is the largest x coordinate of
its crop, and the grid loops end within their fuel.  For 100 by 100 pixels and
`R = 50` this is one interior cell and three edge regions. -/
theorem builder_entry_counts (sum0 : Nat → Nat → Nat) (imageName : String) (image : CImg)
    (R : Int) (hR : 1 ≤ R) :
    (nMultiples 50 100 = 1 ∧ (interiorCells 100 100 50).length = 1 ∧
      (bottomStrip 100 100 50 ++ rightStrip 100 100 50 ++ [cornerRegion 100 100 50]).length = 3 ∧
      (regionPlan 100 100 50).length = 4) ∧
    ∃ entries, indexImage sum0 imageName image R = some entries ∧
      entries.map Prod.snd =
        (regionPlan image.width image.height R).map (fun c => (imageName, c.2)) ∧
      (regionPlan image.width image.height R).Perm
        (interiorCells image.width image.height R ++ bottomStrip image.width image.height R
          ++ rightStrip image.width image.height R ++ [cornerRegion image.width image.height R]) ∧
      (interiorCells image.width image.height R).length
        = nMultiples R image.width * nMultiples R image.height ∧
      (bottomStrip image.width image.height R).length = nMultiples R image.width ∧
      (rightStrip image.width image.height R).length = nMultiples R image.height ∧
      entries.length = (nMultiples R image.width + 1) * (nMultiples R image.height + 1) ∧
      (∀ c ∈ interiorCells image.width image.height R ++ bottomStrip image.width image.height R,
        c.2 = c.1.x1 ∧ c.2 ∈ steps R image.width) ∧
      (∀ c ∈ rightStrip image.width image.height R ++ [cornerRegion image.width image.height R],
        c.2 = c.1.x1 ∧ c.2 = image.width) ∧
      (∀ c ∈ regionPlan image.width image.height R,
        c.2 = max c.1.x0 c.1.x1 ∧ c.1.covers c.2 c.1.y1 ∧
        ∀ px py : Int, c.1.covers px py → px ≤ c.2) ∧
      (∀ (W : Int) (extra : Nat), stepLoop R W (W.toNat + extra) R = steps R W) := by
  obtain ⟨entries, hes, hmap⟩ := indexImage_spec sum0 imageName image R
  have hperm := regionPlan_perm image.width image.height R
  have hnx := length_steps R image.width hR
  have hny := length_steps R image.height hR
  have hint := length_interiorCells image.width image.height R
  have hbot : (bottomStrip image.width image.height R).length = nMultiples R image.width := by
    unfold bottomStrip
    rw [List.length_map, hnx]
  have hright : (rightStrip image.width image.height R).length = nMultiples R image.height := by
    unfold rightStrip
    rw [List.length_map, hny]
  have hleft : ∀ c ∈ interiorCells image.width image.height R
      ++ bottomStrip image.width image.height R, c.2 = c.1.x1 ∧ c.2 ∈ steps R image.width := by
    intro c hc
    rcases List.mem_append.mp hc with hc | hc
    · unfold interiorCells at hc
      rw [List.mem_flatMap] at hc
      obtain ⟨x, hx, hc⟩ := hc
      rw [List.mem_map] at hc
      obtain ⟨y, _, rfl⟩ := hc
      exact ⟨rfl, hx⟩
    · unfold bottomStrip at hc
      rw [List.mem_map] at hc
      obtain ⟨x, hx, rfl⟩ := hc
      exact ⟨rfl, hx⟩
  have hrightm : ∀ c ∈ rightStrip image.width image.height R
      ++ [cornerRegion image.width image.height R], c.2 = c.1.x1 ∧ c.2 = image.width := by
    intro c hc
    rcases List.mem_append.mp hc with hc | hc
    · unfold rightStrip at hc
      rw [List.mem_map] at hc
      obtain ⟨y, _, rfl⟩ := hc
      exact ⟨rfl, rfl⟩
    · rw [List.mem_singleton] at hc
      subst hc
      exact ⟨rfl, rfl⟩
  refine ⟨counts_image100, entries, hes, hmap, hperm, ?_, hbot, hright, ?_, hleft, hrightm, ?_,
    fun W => stepLoop_fuel_enough R W hR⟩
  · rw [hint, hnx, hny]
  · have hlen := congrArg List.length hmap
    rw [List.length_map, List.length_map, hperm.length_eq] at hlen
    rw [hlen]
    simp only [List.length_append, List.length_singleton, hint, hbot, hright, hnx, hny]
    ring
  · intro c hc
    obtain ⟨h1, h2⟩ := marker_of_group image.width image.height R c (hperm.subset hc)
    refine ⟨by rw [h1]; omega, ?_, ?_⟩
    · unfold Rect.covers
      rw [h1]
      omega
    · intro px py hcov
      unfold Rect.covers at hcov
      rw [h1]
      omega

/-- Witness for C13: the 100 by 100 image with region size 50, which gets one
interior-cell entry and three edge entries. -/
theorem builder_entry_counts_witness :
    (nMultiples 50 100 = 1 ∧ (interiorCells 100 100 50).length = 1 ∧
      (bottomStrip 100 100 50 ++ rightStrip 100 100 50 ++ [cornerRegion 100 100 50]).length = 3 ∧
      (regionPlan 100 100 50).length = 4) ∧
    ∃ entries, indexImage (fun _ _ => 0) "A" image100 50 = some entries ∧
      entries.map Prod.snd =
        (regionPlan image100.width image100.height 50).map (fun c => ("A", c.2)) ∧
      (regionPlan image100.width image100.height 50).Perm
        (interiorCells image100.width image100.height 50
          ++ bottomStrip image100.width image100.height 50
          ++ rightStrip image100.width image100.height 50
          ++ [cornerRegion image100.width image100.height 50]) ∧
      (interiorCells image100.width image100.height 50).length
        = nMultiples 50 image100.width * nMultiples 50 image100.height ∧
      (bottomStrip image100.width image100.height 50).length = nMultiples 50 image100.width ∧
      (rightStrip image100.width image100.height 50).length = nMultiples 50 image100.height ∧
      entries.length = (nMultiples 50 image100.width + 1) * (nMultiples 50 image100.height + 1) ∧
      (∀ c ∈ interiorCells image100.width image100.height 50
          ++ bottomStrip image100.width image100.height 50,
        c.2 = c.1.x1 ∧ c.2 ∈ steps 50 image100.width) ∧
      (∀ c ∈ rightStrip image100.width image100.height 50
          ++ [cornerRegion image100.width image100.height 50],
        c.2 = c.1.x1 ∧ c.2 = image100.width) ∧
      (∀ c ∈ regionPlan image100.width image100.height 50,
        c.2 = max c.1.x0 c.1.x1 ∧ c.1.covers c.2 c.1.y1 ∧
        ∀ px py : Int, c.1.covers px py → px ≤ c.2) ∧
      (∀ (W : Int) (extra : Nat), stepLoop 50 W (W.toNat + extra) 50 = steps 50 W) :=
  builder_entry_counts (fun _ _ => 0) "A" image100 50 (by decide)

/-! ### The index store: round trip -/

/-- The object read back from what `serialize` wrote has both collections, each up
to the order of its elements, and nothing is left over. -/
lemma serializeLoad_serializeSave (cd : Codec (List Entry)) (ch : Codec (List (Nat × String)))
    (hcd : cd.RoundTrips) (hch : ch.RoundTrips) (fp_data : Index) :
    ∃ loaded, serializeLoad cd ch (serializeSave cd ch fp_data []) = some (loaded, []) ∧
      loaded.data.Perm fp_data.data ∧ loaded.pHashes.Perm fp_data.pHashes := by
  obtain ⟨d, hd, hdp⟩ := hcd fp_data.data (ch.save fp_data.pHashes)
  obtain ⟨h, hh, hhp⟩ := hch fp_data.pHashes []
  rw [List.append_nil] at hh
  refine ⟨{ data := d, pHashes := h }, ?_, hdp, hhp⟩
  unfold serializeLoad serializeSave
  rw [List.nil_append, hd]
  simp only
  rw [hh]

lemma loadItems_flatMap {β : Type} (enc : β → List Tok) (dec : List Tok → Option (β × List Tok))
    (hdec : ∀ (b : β) (rest : List Tok), dec (enc b ++ rest) = some (b, rest)) :
    ∀ (l : List β) (rest : List Tok) (acc : List β),
      loadItems dec l.length (l.flatMap enc ++ rest) acc = some (l.reverse ++ acc, rest) := by
  intro l
  induction l with
  | nil => intro rest acc; rfl
  | cons b t ih =>
    intro rest acc
    rw [List.length_cons, List.flatMap_cons, List.append_assoc]
    unfold loadItems
    rw [hdec]
    simp only
    rw [ih, List.reverse_cons, List.append_assoc]
    rfl

/-- The text format of a collection keeps the contract of the library. -/
lemma collectionCodec_roundTrips {β : Type} (enc : β → List Tok)
    (dec : List Tok → Option (β × List Tok))
    (hdec : ∀ (b : β) (rest : List Tok), dec (enc b ++ rest) = some (b, rest)) :
    (collectionCodec enc dec).RoundTrips := by
  intro a rest
  refine ⟨a.reverse, ?_, List.reverse_perm a⟩
  unfold collectionCodec
  simp only [List.cons_append, Int.toNat_ofNat]
  rw [loadItems_flatMap enc dec hdec, List.append_nil]

lemma textData_roundTrips : textData.RoundTrips :=
  collectionCodec_roundTrips encEntry decEntry (fun _ _ => rfl)

lemma textHashes_roundTrips : textHashes.RoundTrips :=
  collectionCodec_roundTrips encHash decHash (fun b rest => by
    obtain ⟨k, v⟩ := b
    simp [encHash, decHash])

lemma mem_of_lookup_hash (k : Nat) (v : String) : ∀ l : List (Nat × String),
    l.lookup k = some v → (k, v) ∈ l := by
  intro l
  induction l with
  | nil => intro h; simp [List.lookup] at h
  | cons a t ih =>
    obtain ⟨k1, v1⟩ := a
    intro h
    by_cases hk : k = k1
    · subst hk
      rw [lookup_head] at h
      cases h
      exact List.mem_cons_self _ _
    · rw [lookup_tail _ _ _ _ hk] at h
      exact List.mem_cons_of_mem _ (ih h)

lemma lookup_of_mem_hash (k : Nat) (v : String) : ∀ l : List (Nat × String),
    (l.map Prod.fst).Nodup → (k, v) ∈ l → l.lookup k = some v := by
  intro l
  induction l with
  | nil => intro _ h; simp at h
  | cons a t ih =>
    obtain ⟨k1, v1⟩ := a
    intro hnd h
    rw [List.map_cons, List.nodup_cons] at hnd
    rcases List.mem_cons.mp h with heq | hmem
    · cases heq
      exact lookup_head _ _ _
    · have hk : k ≠ k1 := by
        intro e
        subst e
        apply hnd.1
        exact List.mem_map.mpr ⟨(k, v), hmem, rfl⟩
      rw [lookup_tail _ _ _ _ hk]
      exact ih hnd.2 hmem

/-- Two hash maps with the same entries and distinct keys map every hash alike. -/
lemma lookup_perm_of_nodup (l1 l2 : List (Nat × String)) (hp : l1.Perm l2)
    (hnd : (l2.map Prod.fst).Nodup) (h : Nat) : l1.lookup h = l2.lookup h := by
  have hnd1 : (l1.map Prod.fst).Nodup := ((hp.map Prod.fst).nodup_iff).mpr hnd
  cases h2 : l2.lookup h with
  | some v =>
    exact lookup_of_mem_hash h v l1 hnd1 (hp.symm.subset (mem_of_lookup_hash h v l2 h2))
  | none =>
    cases h1 : l1.lookup h with
    | none => rfl
    | some v =>
      have := lookup_of_mem_hash h v l2 hnd (hp.subset (mem_of_lookup_hash h v l1 h1))
      rw [h2] at this
      cases this

/-- C11: with archive operations that load back each collection they saved, up to
the order of its elements, loading what `serialize` wrote for an index gives an
index whose entry multimap and whose hash map are those of the saved index, up
to order (so a hash map with distinct keys maps every hash as before);
`serialize` writes and reads `data` first and `pHashes` second, and a run with
`--load-index` matches against exactly the loaded pair. -/
theorem index_round_trip (cd : Codec (List Entry)) (ch : Codec (List (Nat × String)))
    (hcd : cd.RoundTrips) (hch : ch.RoundTrips) (index : Index) :
    saveIndex cd ch index.data index.pHashes = cd.save index.data ++ ch.save index.pHashes ∧
    ∃ loaded, loadIndex cd ch (saveIndex cd ch index.data index.pHashes) = some loaded ∧
      loaded.data.Perm index.data ∧ loaded.pHashes.Perm index.pHashes ∧
      ((index.pHashes.map Prod.fst).Nodup →
        ∀ h : Nat, loaded.pHashes.lookup h = index.pHashes.lookup h) ∧
      ∀ (hash : Nat) (image : CImg) (sum0 : Nat → Nat → Nat) (random : Nat → Nat)
        (SAMPLES R : Int),
        mainLoad cd ch (saveIndex cd ch index.data index.pHashes) hash image sum0 random
            SAMPLES R
          = some (matchQuery loaded hash image sum0 random SAMPLES R) := by
  obtain ⟨loaded, hl, hd, hh⟩ := serializeLoad_serializeSave cd ch hcd hch index
  have hload : loadIndex cd ch (saveIndex cd ch index.data index.pHashes) = some loaded := by
    unfold loadIndex saveIndex
    rw [hl]
  refine ⟨by simp [saveIndex, serializeSave], loaded, hload, hd, hh, ?_, ?_⟩
  · intro hnd h
    exact lookup_perm_of_nodup _ _ hh hnd h
  · intro hash image sum0 random SAMPLES R
    unfold mainLoad
    rw [hload]

/-- Witness for C11: the index `indexAB` through the text archive, which loads both
collections in the opposite order. -/
theorem index_round_trip_witness :
    saveIndex textData textHashes indexAB.data indexAB.pHashes
      = textData.save indexAB.data ++ textHashes.save indexAB.pHashes ∧
    ∃ loaded, loadIndex textData textHashes
        (saveIndex textData textHashes indexAB.data indexAB.pHashes) = some loaded ∧
      loaded.data.Perm indexAB.data ∧ loaded.pHashes.Perm indexAB.pHashes ∧
      ((indexAB.pHashes.map Prod.fst).Nodup →
        ∀ h : Nat, loaded.pHashes.lookup h = indexAB.pHashes.lookup h) ∧
      ∀ (hash : Nat) (image : CImg) (sum0 : Nat → Nat → Nat) (random : Nat → Nat)
        (SAMPLES R : Int),
        mainLoad textData textHashes
            (saveIndex textData textHashes indexAB.data indexAB.pHashes) hash image sum0 random
            SAMPLES R
          = some (matchQuery loaded hash image sum0 random SAMPLES R) :=
  index_round_trip textData textHashes textData_roundTrips textHashes_roundTrips indexAB

/-! ### The builder: the shape of the crops -/

/-- For `1 ≤ R ≤ W` and `R ≤ H` every crop of the builder has `R + 1` columns and
`R + 1` rows, its corners are `R` apart with the anchor as bottom-right corner,
and its coordinates lie in `[0, W] x [0, H]`, both ends included. -/
lemma planned_crops_shape (W H R : Int) (hR : 1 ≤ R) (hW : R ≤ W) (hH : R ≤ H) :
    ∀ c ∈ regionPlan W H R,
      c.1.cols = (R + 1).toNat ∧ c.1.rows = (R + 1).toNat ∧
      (c.1.x1 - c.1.x0 = R ∧ c.1.y1 - c.1.y0 = R) ∧
      (0 ≤ c.1.x0 ∧ c.1.x1 ≤ W ∧ 0 ≤ c.1.y0 ∧ c.1.y1 ≤ H) := by
  intro c hc
  have hstep : ∀ (D x : Int), x ∈ steps R D → R ≤ x ∧ x < D := by
    intro D x hx
    rw [mem_steps R D x hR] at hx
    obtain ⟨hlt, k, rfl⟩ := hx
    refine ⟨?_, hlt⟩
    have : (0 : Int) ≤ k * R := by positivity
    nlinarith
  have hmem := (regionPlan_perm W H R).subset hc
  simp only [List.mem_append, interiorCells, bottomStrip, rightStrip, cornerRegion,
    List.mem_flatMap, List.mem_map, List.mem_singleton] at hmem
  rcases hmem with ((⟨x, hx, y, hy, rfl⟩ | ⟨x, hx, rfl⟩) | ⟨y, hy, rfl⟩) | rfl
  · have h1 := hstep W x hx
    have h2 := hstep H y hy
    simp only [Rect.cols, Rect.rows]
    refine ⟨by congr 1; omega, by congr 1; omega, ⟨by omega, by omega⟩, ?_⟩
    omega
  · have h1 := hstep W x hx
    simp only [Rect.cols, Rect.rows]
    refine ⟨by congr 1; omega, by congr 1; omega, ⟨by omega, by omega⟩, ?_⟩
    omega
  · have h2 := hstep H y hy
    simp only [Rect.cols, Rect.rows]
    refine ⟨by congr 1; omega, by congr 1; omega, ⟨by omega, by omega⟩, ?_⟩
    omega
  · simp only [Rect.cols, Rect.rows]
    refine ⟨by congr 1; omega, by congr 1; omega, ⟨by omega, by omega⟩, ?_⟩
    omega

/-- C12 (code defect): for the 100 by 100 image with region size 50 the builder
crops four rectangles whose corners are both included, so each crop has 51
columns and 51 rows instead of 50, and the corner crop reads column 100 and row
100, which are outside the image (its pixel `(50, 50)` is the zero padding). -/
theorem builder_crops_image100 :
    regionPlan image100.width image100.height 50 =
      [ ({ x0 := 0, y0 := 0, x1 := 50, y1 := 50 }, 50),
        ({ x0 := 0, y0 := 50, x1 := 50, y1 := 100 }, 50),
        ({ x0 := 50, y0 := 0, x1 := 100, y1 := 50 }, 100),
        ({ x0 := 50, y0 := 50, x1 := 100, y1 := 100 }, 100) ] ∧
    (∀ c ∈ regionPlan image100.width image100.height 50,
      (get_crop image100 c.1).width = 51 ∧ (get_crop image100 c.1).height = 51) ∧
    ({ x0 := 50, y0 := 50, x1 := 100, y1 := 100 } : Rect).covers 100 100 ∧
    ¬ ((100 : Int) < image100.width) ∧
    (get_crop image100 { x0 := 50, y0 := 50, x1 := 100, y1 := 100 }).pix 49 49 0
      = image100.pix 99 99 0 ∧
    (get_crop image100 { x0 := 50, y0 := 50, x1 := 100, y1 := 100 }).pix 50 50 0 = 0 := by
  decide

/-! ### The region fingerprint: range and channels -/

lemma pix_le (image : CImg) (x y c : Nat) : image.pix x y c ≤ 255 := by
  unfold CImg.pix
  omega

/-- An accumulation reduced modulo `M` is the plain sum as long as it stays
below `M`. -/
lemma foldl_mod_eq_sum {β : Type} (M B : Nat) (f : β → Nat) (hf : ∀ b, f b ≤ B) :
    ∀ (l : List β) (s0 : Nat), s0 + B * l.length < M →
      l.foldl (fun s y => (s + f y) % M) s0 = s0 + (l.map f).sum ∧
      (l.map f).sum ≤ B * l.length := by
  intro l
  induction l with
  | nil => intro s0 _; simp
  | cons b t ih =>
    intro s0 h
    have hb := hf b
    rw [List.length_cons, Nat.mul_succ] at h
    have hmod : (s0 + f b) % M = s0 + f b := Nat.mod_eq_of_lt (by omega)
    obtain ⟨h1, h2⟩ := ih (s0 + f b) (by omega)
    rw [List.foldl_cons, hmod, h1, List.map_cons, List.sum_cons, List.length_cons, Nat.mul_succ]
    constructor <;> omega

/-- The sum of a channel over all pixels, row sums added up. -/
lemma channelSum_zero (image : CImg) (c : Nat)
    (hsmall : 255 * (image.width * image.height) < 2 ^ 64) :
    channelSum 0 image c =
      ((List.range image.width).map (fun x =>
        ((List.range image.height).map (fun y => image.pix x y c)).sum)).sum ∧
    channelSum 0 image c ≤ 255 * (image.width * image.height) := by
  have hrow : ∀ (l : List Nat) (s0 : Nat), s0 + 255 * image.height * l.length < 2 ^ 64 →
      l.foldl (fun sum x => (List.range image.height).foldl
        (fun sum y => (sum + image.pix x y c) % 2 ^ 64) sum) s0 =
      s0 + (l.map (fun x =>
        ((List.range image.height).map (fun y => image.pix x y c)).sum)).sum ∧
      (l.map (fun x =>
        ((List.range image.height).map (fun y => image.pix x y c)).sum)).sum
        ≤ 255 * image.height * l.length := by
    intro l
    induction l with
    | nil => intro s0 _; simp
    | cons x t ih =>
      intro s0 h
      rw [List.length_cons, Nat.mul_succ] at h
      obtain ⟨h1, h2⟩ := foldl_mod_eq_sum (2 ^ 64) 255 (fun y => image.pix x y c)
        (fun y => pix_le image x y c) (List.range image.height) s0
        (by rw [List.length_range]; omega)
      rw [List.length_range] at h2
      obtain ⟨h3, h4⟩ := ih (s0 + ((List.range image.height).map
        (fun y => image.pix x y c)).sum) (by omega)
      rw [List.foldl_cons, h1, h3, List.map_cons, List.sum_cons, List.length_cons, Nat.mul_succ]
      constructor <;> omega
  obtain ⟨h1, h2⟩ := hrow (List.range image.width) 0 (by
    rw [List.length_range]
    have : 255 * image.height * image.width = 255 * (image.width * image.height) := by ring
    omega)
  rw [List.length_range] at h2
  unfold channelSum
  rw [h1]
  have : 255 * image.height * image.width = 255 * (image.width * image.height) := by ring
  constructor <;> omega

/-- When `sum` starts at zero, the value pushed for a channel is the integer mean
of that channel, at most 255. -/
lemma channelMeanBits_zero (image : CImg) (c : Nat)
    (hint : image.width * image.height < 2 ^ 31) :
    channelMeanBits 0 image c = channelMean image c ∧ channelMean image c ≤ 255 := by
  obtain ⟨h1, h2⟩ := channelSum_zero image c (by omega)
  have hle : channelSum 0 image c / (image.width * image.height) ≤ 255 :=
    Nat.div_le_of_le_mul (by rw [Nat.mul_comm]; exact h2)
  unfold channelMeanBits channelMean
  rw [← h1, Nat.mod_eq_of_lt (by omega)]
  exact ⟨rfl, hle⟩

lemma pack_lt (a b : Nat) (ha : a ≤ 255) (hb : b ≤ 255) :
    (a <<< 16) ||| (b <<< 8) ||| a < 2 ^ 24 := by
  apply Nat.or_lt_two_pow
  · apply Nat.or_lt_two_pow
    · rw [Nat.shiftLeft_eq]; omega
    · rw [Nat.shiftLeft_eq]; omega
  · omega

/-- What `computeFingerprint` returns when `sum` starts at zero in every channel:
the integer means of channels 0 and 1 packed as `(meanA << 16) | (meanB << 8) |
meanA`, a value below `2 ^ 24` made of means of at most 255. -/
lemma computeFingerprint_zeroSum (image : CImg) (hne : image.width * image.height ≠ 0)
    (hint : image.width * image.height < 2 ^ 31) :
    computeFingerprint zeroSum image =
      some (((channelMean image 0 <<< 16) ||| (channelMean image 1 <<< 8)
        ||| channelMean image 0 : Nat) : Int) ∧
    (channelMean image 0 ≤ 255 ∧ channelMean image 1 ≤ 255 ∧ channelMean image 2 ≤ 255) ∧
    (channelMean image 0 <<< 16) ||| (channelMean image 1 <<< 8) ||| channelMean image 0
      < 2 ^ 24 := by
  obtain ⟨e0, b0⟩ := channelMeanBits_zero image 0 hint
  obtain ⟨e1, b1⟩ := channelMeanBits_zero image 1 hint
  obtain ⟨_, b2⟩ := channelMeanBits_zero image 2 hint
  have hp := pack_lt _ _ b0 b1
  refine ⟨?_, ⟨b0, b1, b2⟩, hp⟩
  unfold computeFingerprint
  rw [if_neg hne]
  have hr : List.range 3 = [0, 1, 2] := by decide
  simp only [hr, List.map_cons, List.map_nil, List.getD_cons_zero, List.getD_cons_succ,
    zeroSum, e0, e1]
  rw [Nat.mod_eq_of_lt (by omega), toI32_of_lt _ (by omega)]

/-- The result of `computeFingerprint` is made of the values computed for channels
0 and 1 only, the first of them twice, whatever `sum` starts from. -/
lemma computeFingerprint_eq (sum0 : Nat → Nat) (image : CImg)
    (hne : image.width * image.height ≠ 0) :
    computeFingerprint sum0 image =
      some (toI32 (((channelMeanBits (sum0 0) image 0 <<< 16)
        ||| (channelMeanBits (sum0 1) image 1 <<< 8)
        ||| channelMeanBits (sum0 0) image 0) % 2 ^ 32)) := by
  unfold computeFingerprint
  rw [if_neg hne]
  have hr : List.range 3 = [0, 1, 2] := by decide
  simp only [hr, List.map_cons, List.map_nil, List.getD_cons_zero, List.getD_cons_succ]

lemma channelSum_congr (init : Nat) (image1 image2 : CImg) (c : Nat)
    (hw : image1.width = image2.width) (hh : image1.height = image2.height)
    (hpix : ∀ x y, image1.pix x y c = image2.pix x y c) :
    channelSum init image1 c = channelSum init image2 c := by
  unfold channelSum
  rw [hw, hh]
  simp only [hpix]

/-- Two regions of the same size that agree on channels 0 and 1 get the same
fingerprint, whatever their channel 2 holds and whatever `sum` starts from. -/
lemma computeFingerprint_ignores_channel2 (sum0 : Nat → Nat) (image1 image2 : CImg)
    (hw : image1.width = image2.width) (hh : image1.height = image2.height)
    (hpix : ∀ x y c, c < 2 → image1.pix x y c = image2.pix x y c) :
    computeFingerprint sum0 image1 = computeFingerprint sum0 image2 := by
  by_cases hne : image1.width * image1.height = 0
  · unfold computeFingerprint
    rw [if_pos hne, if_pos (by rw [← hw, ← hh]; exact hne)]
  · have hne2 : image2.width * image2.height ≠ 0 := by rw [← hw, ← hh]; exact hne
    rw [computeFingerprint_eq sum0 image1 hne, computeFingerprint_eq sum0 image2 hne2]
    unfold channelMeanBits
    rw [channelSum_congr (sum0 0) image1 image2 0 hw hh (fun x y => hpix x y 0 (by decide)),
      channelSum_congr (sum0 1) image1 image2 1 hw hh (fun x y => hpix x y 1 (by decide)),
      hw, hh]

/-- C15 (code defect): on the one-pixel region `(200, 200, 0)`, when the
uninitialised `sum` still holds the total 200 of channel 0 as the loop of channel
1 starts, the second packed value is 400, above 255, and spills into the field
of the first; when `sum` holds 1000 as the loops start, the returned value is
78951600, above `2 ^ 24 - 1`. -/
theorem computeFingerprint_out_of_range :
    channelMeanBits 200 pixel200 1 = 400 ∧
    computeFingerprint (fun c => if c = 1 then 200 else 0) pixel200 = some 13209800 ∧
    computeFingerprint (fun _ => 1000) pixel200 = some 78951600 ∧
    ¬ ((78951600 : Int) ≤ 2 ^ 24 - 1) := by
  decide

/-- C16 (code defect): on the two-pixel region with channel means 15, 30 and 40,
when the uninitialised `sum` still holds the total 30 of channel 0 as the loop of
channel 1 starts, `computeFingerprint` returns `(15 << 16) | (45 << 8) | 15`,
which is 994575, and not `(15 << 16) | (30 << 8) | 15`, which is 990735. -/
theorem computeFingerprint_carried_sum :
    channelMean twoPixelRegion 0 = 15 ∧ channelMean twoPixelRegion 1 = 30 ∧
    computeFingerprint (fun c => if c = 1 then 30 else 0) twoPixelRegion = some 994575 ∧
    ((15 <<< 16) ||| (45 <<< 8) ||| 15 : Nat) = 994575 ∧
    ((15 <<< 16) ||| (30 <<< 8) ||| 15 : Nat) = 990735 := by
  decide

end Fingerprint
